import Mathlib

/-!
Shallow embedding of the enrichment engine of `iggyenrich/iggy_data_package.py`
(class `LocalIggyDataPackage` and the helper `infer_bounds`).

Tables (`pandas.DataFrame` / `geopandas.GeoDataFrame`) are modelled as a list of
column names plus a list of rows; each row carries its index label (pandas index)
and an association list of `(column name, cell value)` pairs.  Cell values are
modelled by `Value`: strings, integers (standing in for the numeric dtypes --
the claims only ever compare numbers for order and never exercise fractional
arithmetic), booleans and null (`NaN`/`None`).  External collaborators
(`pd.read_parquet`, `pyquadkey2.quadkey.from_geo`) are passed in as function
parameters, mirroring the spec's "external collaborator that supplies tabular
data given a path".
-/

namespace Iggy

/-- Cell values of a table. `vNull` stands for `NaN`/missing. -/
inductive Value where
  | vStr (s : String)
  | vNum (n : Int)
  | vBool (b : Bool)
  | vNull
deriving DecidableEq, Repr

/-- A table row: association list from column name to cell value. -/
abbrev Row := List (String × Value)

/-- Cell lookup in a row: first pair with the given column name, null if absent. -/
def getV (r : Row) (c : String) : Value :=
  match r.find? (fun p => decide (p.1 = c)) with
  | some p => p.2
  | none => Value.vNull

/-- Does the row carry the column? -/
def hasColR (r : Row) (c : String) : Bool :=
  (r.find? (fun p => decide (p.1 = c))).isSome

/-- Remove every pair with the given column name. -/
def eraseCol (r : Row) (c : String) : Row :=
  r.filter (fun p => decide (p.1 ≠ c))

/-- Null cells for a list of column names (the unmatched side of a left join). -/
def nullFill (cols : List String) : Row :=
  cols.map (fun c => (c, Value.vNull))

/-- A dataframe: geo flag (`gpd.GeoDataFrame` vs `pd.DataFrame`), index name
(`""` models an unnamed pandas index), column names, and rows tagged with their
index label. -/
structure DF where
  isGeo : Bool := false
  idxName : String := ""
  cols : List String := []
  rows : List (Value × Row) := []
deriving DecidableEq, Repr

/-- Index labels of a dataframe, in row order. -/
def idsOf (df : DF) : List Value := df.rows.map (fun p => p.1)

/-- Column values of a dataframe, in row order. -/
def colVals (df : DF) (c : String) : List Value := df.rows.map (fun p => getV p.2 c)

/-- `df[c] = ...` column assignment: overwrite the column if present, else append it. -/
def DF.setCol (df : DF) (c : String) (f : Value × Row → Value) : DF :=
  { df with
    cols := if c ∈ df.cols then df.cols else df.cols ++ [c],
    rows := df.rows.map (fun p =>
      (p.1, if hasColR p.2 c
            then p.2.map (fun q => if q.1 = c then (c, f p) else q)
            else p.2 ++ [(c, f p)])) }

/-- `df.drop([c], axis=1)` with the source's tolerated-when-absent semantics
(the source wraps drops of descriptive columns in `try/except KeyError`; at the
other drop sites the pipeline guarantees the column is present). -/
def DF.dropColT (df : DF) (c : String) : DF :=
  { df with
    cols := df.cols.filter (fun c2 => decide (c2 ≠ c)),
    rows := df.rows.map (fun p => (p.1, eraseCol p.2 c)) }

/-- Drop a list of columns. -/
def DF.dropColsList (df : DF) (cs : List String) : DF :=
  cs.foldl DF.dropColT df

/-- `df.reset_index()`: the index becomes the first column (named `"index"` when
the index is unnamed) and the new index is the positional range 0,1,2,…. -/
def DF.resetIndex (df : DF) : DF :=
  let n := if df.idxName = "" then "index" else df.idxName
  { df with
    idxName := "",
    cols := n :: df.cols,
    rows := df.rows.enum.map (fun q => (Value.vNum q.1, (n, q.2.1) :: q.2.2)) }

/-- `df.set_index(c)`: column `c` becomes the index. -/
def DF.setIndex (df : DF) (c : String) : DF :=
  { df with
    idxName := c,
    cols := df.cols.filter (fun c2 => decide (c2 ≠ c)),
    rows := df.rows.map (fun p => (getV p.2 c, eraseCol p.2 c)) }

/-- `left.join(right, how="left", on=c)`: match the values of left column `c`
against the right table's index labels.  Every left row appears at least once;
unmatched left rows get nulls in the right columns; a null key never matches. -/
def joinLeftOnIndex (L R : DF) (c : String) : DF :=
  { isGeo := L.isGeo,
    idxName := L.idxName,
    cols := L.cols ++ R.cols,
    rows := L.rows.flatMap (fun p =>
      let key := getV p.2 c
      let ms := R.rows.filter (fun q => decide (q.1 = key) && decide (key ≠ Value.vNull))
      if ms.isEmpty then [(p.1, p.2 ++ nullFill R.cols)]
      else ms.map (fun q => (p.1, p.2 ++ q.2))) }

/-- `left.merge(right, how="left", left_on=lc, right_on=rc)`: like the left join
above but matching a right *column*; pandas discards the left index here and the
result is indexed positionally 0,1,2,…. -/
def mergeLeft (L R : DF) (lc rc : String) : DF :=
  { isGeo := L.isGeo,
    idxName := "",
    cols := L.cols ++ R.cols,
    rows := ((L.rows.flatMap (fun p =>
      let key := getV p.2 lc
      let ms := R.rows.filter (fun q => decide (getV q.2 rc = key) && decide (key ≠ Value.vNull))
      if ms.isEmpty then [p.2 ++ nullFill R.cols]
      else ms.map (fun q => p.2 ++ q.2))).enum.map (fun q => (Value.vNum q.1, q.2))) }

/-- Substring test on character lists (backing `"intersects" in c`). -/
def subOf (pat : List Char) : List Char → Bool
  | [] => pat.isEmpty
  | c :: t => pat.isPrefixOf (c :: t) || subOf pat t

/-- `"intersects" in c` for a column name `c`. -/
def containsIntersects (c : String) : Bool :=
  subOf "intersects".data c.data

/-- `astype(float)` on a cell.  Booleans become 0/1; numbers stay; `NaN` stays
`NaN`.  (A non-numeric string would raise in pandas; no claim exercises that.) -/
def castFloat : Value → Value
  | Value.vBool b => Value.vNum (if b then 1 else 0)
  | v => v

/-- `astype(str)` on a cell (`NaN` prints as `"nan"`, booleans as `"True"`/`"False"`). -/
def castStr : Value → Value
  | Value.vStr s => Value.vStr s
  | Value.vNum n => Value.vStr (toString n)
  | Value.vBool b => Value.vStr (if b then "True" else "False")
  | Value.vNull => Value.vStr "nan"

/-- Dtype cleanup at the end of both enrich paths: every column whose name
contains the substring `"intersects"` is cast to float. -/
def astypeIntersects (df : DF) : DF :=
  { df with rows := df.rows.map (fun p =>
      (p.1, p.2.map (fun q => if containsIntersects q.1 then (q.1, castFloat q.2) else q))) }

/-- `base_data[c] = base_data[c].astype(str)`: cast one column to string dtype. -/
def castStrColDF (df : DF) (c : String) : DF :=
  { df with rows := df.rows.map (fun p =>
      (p.1, p.2.map (fun q => if q.1 = c then (q.1, castStr q.2) else q))) }

/-- Cell order used by `sort_values(..., ascending=asc)`.  Numbers compare by
value in the requested direction; `NaN` sorts last (`na_position="last"`)
regardless of direction; the remaining kinds (never exercised by the ranking
columns, which are numeric) sit in a single class between numbers and nulls. -/
def valueLe (asc : Bool) : Value → Value → Bool
  | Value.vNull, Value.vNull => true
  | Value.vNull, _ => false
  | _, Value.vNull => true
  | Value.vNum x, Value.vNum y => if asc then decide (x ≤ y) else decide (y ≤ x)
  | Value.vNum _, _ => true
  | _, Value.vNum _ => false
  | _, _ => true

/-- Lexicographic order on sort-key tuples (multi-column `sort_values`). -/
def lexLe (asc : Bool) : List Value → List Value → Bool
  | [], _ => true
  | _ :: _, [] => true
  | a :: as, b :: bs =>
    if valueLe asc a b then (if valueLe asc b a then lexLe asc as bs else true)
    else false

/-- Insert into a sorted list (helper of the sort). -/
def insertLe {α : Type} (le : α → α → Bool) (x : α) : List α → List α
  | [] => [x]
  | y :: t => if le x y then x :: y :: t else y :: insertLe le x t

/-- Insertion sort modelling `df.sort_values`.  (pandas' default quicksort is
unstable; no claim depends on the order of ties, so any correct sort is a
faithful model.) -/
def sortLe {α : Type} (le : α → α → Bool) : List α → List α
  | [] => []
  | x :: t => insertLe le x (sortLe le t)

/-- Sort key of a row for the given key columns. -/
def keyOfRow (cols : List String) (r : Row) : List Value := cols.map (getV r)

/-- `df.sort_values(by=cols, ascending=asc)`. -/
def sortValues (df : DF) (cols : List String) (asc : Bool) : DF :=
  { df with rows := sortLe (fun p q => lexLe asc (keyOfRow cols p.2) (keyOfRow cols q.2)) df.rows }

/-- Core of `drop_duplicates(subset=c)`: keep the first row for each value of
column `c` (`seen` accumulates the key values already kept). -/
def dedupKey (c : String) (seen : List Value) : List (Value × Row) → List (Value × Row)
  | [] => []
  | p :: t =>
    let k := getV p.2 c
    if k ∈ seen then dedupKey c seen t else p :: dedupKey c (k :: seen) t

/-- `df.drop_duplicates(c)`. -/
def dropDupsCol (df : DF) (c : String) : DF :=
  { df with rows := dedupKey c [] df.rows }

/-- The fixed `KNOWN_BOUNDARIES` enumeration of the source. -/
def KNOWN_BOUNDARIES : List String :=
  ["qk_isochrone_walk_10m", "cbg", "census_tract", "county", "locality", "metro", "zipcode"]

/-- `ResolveDupsEnum` of the source. -/
inductive ResolveDupsEnum where
  | smallest_area
  | smallest_population
  | largest_area
  | largest_population
deriving DecidableEq, Repr

/-- `LocalIggyDataPackage._resolve_duplicates`: reset the index, sort all rows
by the per-boundary ranking columns in the direction implied by the rule, keep
the first row per index value, and restore the index. -/
def resolveDups (df : DF) (m : ResolveDupsEnum) : DF :=
  let idxn := df.idxName
  let d := df.resetIndex
  let id_cols := KNOWN_BOUNDARIES.filter (fun b => (b ++ "_id") ∈ d.cols)
  let dc :=
    match m with
    | ResolveDupsEnum.largest_area => (id_cols.map (fun b => b ++ "_area_sqkm"), false)
    | ResolveDupsEnum.smallest_area => (id_cols.map (fun b => b ++ "_area_sqkm"), true)
    | ResolveDupsEnum.largest_population => (id_cols.map (fun b => b ++ "_population"), false)
    | ResolveDupsEnum.smallest_population => (id_cols.map (fun b => b ++ "_population"), true)
  (dropDupsCol (sortValues d dc.1 dc.2) idxn).setIndex idxn

/-- Key lookup in an insertion-ordered association list (a Python `dict`). -/
def alookup {β : Type} (l : List (String × β)) (k : String) : Option β :=
  (l.find? (fun p => decide (p.1 = k))).map (fun p => p.2)

/-- `dict` assignment `d[k] = v`: overwrite in place, else append. -/
def upsert {β : Type} (l : List (String × β)) (k : String) (v : β) : List (String × β) :=
  if (alookup l k).isSome then l.map (fun p => if p.1 = k then (k, v) else p)
  else l ++ [(k, v)]

/-- `del d[k]`. -/
def eraseKey {β : Type} (l : List (String × β)) (k : String) : List (String × β) :=
  l.filter (fun p => decide (p.1 ≠ k))

/-- `f.endswith(kb)` on strings, computed on the character lists. -/
def strEndsWith (f kb : String) : Bool :=
  kb.data.isSuffixOf f.data

/-- The `if boundaries:` stage of `infer_bounds`: known requested boundaries,
each mapped to the empty (= all) feature subset; unknown names are dropped by
the filter. -/
def inferBoundsD0 (boundaries : List String) : List (String × List String) :=
  if boundaries ≠ [] then
    (boundaries.filter (fun b => b ∈ KNOWN_BOUNDARIES)).foldl (fun acc b => upsert acc b []) []
  else []

/-- The `if features:` stage of `infer_bounds`: for every known boundary that is
a suffix of some requested feature name (`kb_features` in the source, inlined
here), set that boundary's entry to those features. -/
def inferBoundsD1 (features : List String) (d0 : List (String × List String)) :
    List (String × List String) :=
  if features ≠ [] then
    KNOWN_BOUNDARIES.foldl (fun acc kb =>
      if features.filter (fun f => strEndsWith f kb) ≠ [] then
        upsert acc kb (features.filter (fun f => strEndsWith f kb))
      else acc) d0
  else d0

/-- `infer_bounds` of the source: which boundaries (with per-boundary feature
subsets) to load.  Explicitly requested known boundaries come first, feature
names add (or refine) the boundary their suffix names, and when nothing
survives the whole known enumeration is selected with no feature restriction. -/
def infer_bounds (boundaries features : List String) : List (String × List String) :=
  if inferBoundsD1 features (inferBoundsD0 boundaries) = [] then
    KNOWN_BOUNDARIES.map (fun kb => (kb, []))
  else inferBoundsD1 features (inferBoundsD0 boundaries)

/-- Mutable state of a `LocalIggyDataPackage`: the lazily loaded crosswalk, the
resident boundary tables, and the record of each resident boundary's loaded
feature subset.  (The path/prefix configuration fields only name files for the
external loader and are absorbed into the loader parameter.) -/
structure PkgState where
  crosswalk : Option DF := none
  boundary_data : List (String × DF) := []
  bounds_features : List (String × List String) := []
deriving DecidableEq, Repr

/-- Column suffixing after a boundary fetch: `df.columns.map(lambda x: str(x) + "_" + boundary)`. -/
def suffixAllCols (bnd : String) (df : DF) : DF :=
  { df with
    cols := df.cols.map (fun c => c ++ "_" ++ bnd),
    rows := df.rows.map (fun p => (p.1, p.2.map (fun q => (q.1 ++ "_" ++ bnd, q.2)))) }

/-- Feature selection after a boundary fetch: keep the requested features with
`id_<bnd>` forced last (pandas raises on a missing feature; the model reads a
missing column as null, which no claim exercises). -/
def selectFeatures (bnd : String) (feats : List String) (df : DF) : DF :=
  if feats = [] then df
  else
    let keep := feats.filter (fun f => decide (f ≠ "id_" ++ bnd)) ++ ["id_" ++ bnd]
    { df with
      cols := keep,
      rows := df.rows.map (fun p => (p.1, keep.map (fun c => (c, getV p.2 c)))) }

/-- One boundary fetch inside `_load_bounds_features`: `pd.read_parquet` (the
external `loader`, which may fail), column suffixing, feature selection. -/
def loadOne (loader : String → Except Unit DF) (bnd : String) (feats : List String) :
    Except Unit DF :=
  (loader bnd).map (fun df => selectFeatures bnd feats (suffixAllCols bnd df))

/-- The fetch loop of `_load_bounds_features`.  `bf0` is the (unchanged during
the loop) `self.bounds_features`; `bd` accumulates `self.boundary_data`, which
the loop mutates one boundary at a time; `fetched` records the fetch side
effects.  A loader failure aborts the loop (the Python exception propagates),
leaving the mutations made so far in place. -/
def loadBoundsAux (loader : String → Except Unit DF) (bf0 : List (String × List String)) :
    List (String × List String) → List (String × DF) → List String →
    List (String × DF) × List String × Bool
  | [], bd, fetched => (bd, fetched, true)
  | (b, feats) :: rest, bd, fetched =>
    if alookup bf0 b = some feats then loadBoundsAux loader bf0 rest bd fetched
    else
      match loadOne loader b feats with
      | Except.error _ => (bd, fetched, false)
      | Except.ok df => loadBoundsAux loader bf0 rest (upsert bd b df) (fetched ++ [b])

/-- `LocalIggyDataPackage._load_bounds_features`: fetch what the target needs,
then evict every previously recorded boundary absent from the target, then
overwrite `bounds_features` with the target.  On a loader failure the exception
propagates: evictions and the `bounds_features` overwrite do not happen, but the
tables fetched earlier in the call remain stored. -/
def loadBoundsFeatures (loader : String → Except Unit DF) (st : PkgState)
    (tgt : List (String × List String)) : PkgState × List String × Bool :=
  match loadBoundsAux loader st.bounds_features tgt st.boundary_data [] with
  | (bd, fetched, true) =>
    let removed := (st.bounds_features.filter (fun p => (alookup tgt p.1).isNone)).map (fun p => p.1)
    ({ crosswalk := st.crosswalk,
       boundary_data := removed.foldl eraseKey bd,
       bounds_features := tgt }, fetched, true)
  | (bd, fetched, false) => ({ st with boundary_data := bd }, fetched, false)

/-- Result of a `load` call: final state, boundary fetch events, whether the
crosswalk was fetched, and whether the call completed without an exception. -/
structure LoadOutcome where
  state : PkgState
  fetched : List String := []
  cwFetched : Bool := false
  ok : Bool := true
deriving DecidableEq, Repr

/-- Shared tail of `load`: infer the target and reconcile. -/
def loadReconcile (loader : String → Except Unit DF) (st : PkgState)
    (boundaries features : List String) (cwF : Bool) : LoadOutcome :=
  match loadBoundsFeatures loader st (infer_bounds boundaries features) with
  | (st2, fetched, ok) => { state := st2, fetched := fetched, cwFetched := cwF, ok := ok }

/-- `LocalIggyDataPackage.load`: fetch the crosswalk once (`cwLoader` models
`pd.read_parquet(self.crosswalk_loc)` followed by `set_index("id")`), then
reconcile the boundary tables against the inferred target. -/
def load (loader : String → Except Unit DF) (cwLoader : Except Unit DF) (st : PkgState)
    (boundaries features : List String) : LoadOutcome :=
  match st.crosswalk with
  | some _ => loadReconcile loader st boundaries features false
  | none =>
    match cwLoader with
    | Except.error _ => { state := st, fetched := [], cwFetched := false, ok := false }
    | Except.ok cw =>
      loadReconcile loader { st with crosswalk := some (cw.setIndex "id") } boundaries features true

/-- `points.copy()` plus `if not points.index.name: points_.index.name = "points_index"`. -/
def namedIdx (points : DF) : DF :=
  if points.idxName = "" then { points with idxName := "points_index" } else points

/-- The crosswalk stage of `_enrich_points`: compute the quadkey column (`mkQK`
models `quadkey.from_geo` applied to the row's geometry or to its
latitude/longitude columns — an external collaborator, identical for every
row), left-join the points to the crosswalk on it, and drop it again. -/
def crosswalkJoin (cw : DF) (mkQK : Row → String) (points : DF) : DF :=
  (joinLeftOnIndex ((namedIdx points).setCol "qk" (fun p => Value.vStr (mkQK p.2))) cw "qk").dropColT "qk"

/-- After each boundary merge, drop the boundary's descriptive columns
(`id`/`name`/`geometry`, suffixed) unless explicitly requested (`try/except
KeyError` in the source makes an absent column a no-op). -/
def dropXtraCols (bnd : String) (feats : List String) (df : DF) : DF :=
  ["id", "name", "geometry"].foldl (fun acc col =>
    if (col ++ "_" ++ bnd) ∈ feats then acc else acc.dropColT (col ++ "_" ++ bnd)) df

/-- One iteration of the boundary-join loop of `_enrich_points`: left-merge the
resident table of one boundary and strip its descriptive columns.  (Python
would raise `KeyError` were the boundary not resident; the resident-set
invariant guarantees it is, and the model reads an absent entry as empty.) -/
def boundaryMerge (bd : List (String × DF)) (acc : DF) (p : String × List String) : DF :=
  let dfb := (alookup bd p.1).getD {}
  dropXtraCols p.1 p.2 (mergeLeft acc dfb (p.1 ++ "_id") ("id_" ++ p.1))

/-- `LocalIggyDataPackage._enrich_points` (with the default `drop_qk_col=True`):
crosswalk join, duplicate resolution when the join fanned out, boundary merges,
index restoration with the row-count assertion, crosswalk-column cleanup and
dtype normalization.  `.error` models a raised `AssertionError`. -/
def enrichPoints (cw : DF) (bf : List (String × List String)) (bd : List (String × DF))
    (mkQK : Row → String) (points : DF) (m : ResolveDupsEnum) : Except String DF :=
  let pts1 := namedIdx points
  let pcw0 := crosswalkJoin cw mkQK points
  let pcw1 := if pcw0.rows.length ≠ points.rows.length then resolveDups pcw0 m else pcw0
  let dfj0 := bf.foldl (boundaryMerge bd) pcw1.resetIndex
  let dfj1 := dfj0.setIndex pts1.idxName
  if dfj1.rows.length = points.rows.length then
    Except.ok (astypeIntersects (dfj1.dropColsList cw.cols))
  else Except.error "AssertionError: row count changed by boundary join"

/-- `LocalIggyDataPackage._enrich_boundary`.  The first component of the result
is the caller's `base_data` object as it is left after the call: its identifier
column is cast to string dtype in place *before* anything else happens (when the
column is missing, Python raises `KeyError` on the read and nothing is
mutated).  Then the boundary is auto-loaded if not resident (a loader failure
propagates), the input is left-merged to the boundary table (discarding the
caller's index), the row count asserted, descriptive columns stripped and
intersects columns cast to float. -/
def enrichBoundary (loader : String → Except Unit DF) (st : PkgState) (base : DF)
    (bname bcol : String) : PkgState × DF × Except String DF :=
  if bcol ∈ base.cols then
    let base1 := castStrColDF base bcol
    let r1 :=
      if (alookup st.bounds_features bname).isSome then (st, true)
      else
        let r := loadBoundsFeatures loader st (st.bounds_features ++ [(bname, [])])
        (r.1, r.2.2)
    let st1 := r1.1
    if r1.2 then
      let base2 := if base1.idxName = "" then { base1 with idxName := "base_index" } else base1
      let dfb := (alookup st1.boundary_data bname).getD {}
      let dj := mergeLeft base2 dfb bcol ("id_" ++ bname)
      if dj.rows.length = base.rows.length then
        let feats := (alookup st1.bounds_features bname).getD []
        (st1, base1, Except.ok (astypeIntersects (dropXtraCols bname feats dj)))
      else (st1, base1, Except.error "AssertionError: row count changed by boundary join")
    else (st1, base1, Except.error "boundary load failed")
  else (st, base, Except.error "KeyError: missing boundary column")

/-- Python truthiness of an optional string argument. -/
def truthyS : Option String → Bool
  | none => false
  | some s => decide (s ≠ "")

/-- `LocalIggyDataPackage.enrich`: dispatch to identifier-based enrichment when
a boundary-identifier column is supplied (first match in the source's fixed
order), otherwise require a GeoDataFrame or both coordinate columns (the
`assert`, whose failure is modelled by `.error` with no join and no state
mutation) and run coordinate-based enrichment.  The result is the final state,
the caller's `points` object as the call leaves it, and the outcome. -/
def enrich (loader : String → Except Unit DF) (mkQK : Row → String) (st : PkgState) (points : DF)
    (latitude_col longitude_col census_block_group_col census_tract_col zipcode_col
      county_col metro_col : Option String) (resolve_dups : ResolveDupsEnum) :
    PkgState × DF × Except String DF :=
  if truthyS census_block_group_col then
    enrichBoundary loader st points "cbg" (census_block_group_col.getD "")
  else if truthyS census_tract_col then
    enrichBoundary loader st points "census_tract" (census_tract_col.getD "")
  else if truthyS zipcode_col then
    enrichBoundary loader st points "zipcode" (zipcode_col.getD "")
  else if truthyS county_col then
    enrichBoundary loader st points "county" (county_col.getD "")
  else if truthyS metro_col then
    enrichBoundary loader st points "metro" (metro_col.getD "")
  else if points.isGeo || (truthyS latitude_col && truthyS longitude_col) then
    match st.crosswalk with
    | none => (st, points, Except.error "AttributeError: crosswalk data not loaded")
    | some cw => (st, points, enrichPoints cw st.bounds_features st.boundary_data mkQK points resolve_dups)
  else
    (st, points,
      Except.error "AssertionError: points is not a GeoDataFrame and no identifier or coordinate columns were passed")

/-! ### Concrete example data for counterexamples and witnesses -/

/-- A minimal boundary table returned by the example loaders. -/
def tinyDF : DF := { cols := ["id"], rows := [(Value.vNum 0, [("id", Value.vStr "x")])] }

/-- Loader that always succeeds. -/
def okLoader : String → Except Unit DF := fun _ => Except.ok tinyDF

/-- Loader that fails on the `zipcode` boundary file only. -/
def zipFailLoader : String → Except Unit DF :=
  fun b => if b = "zipcode" then Except.error () else Except.ok tinyDF

/-- Loader that always fails (never reached in the scenarios that use it). -/
def noLoader : String → Except Unit DF := fun _ => Except.error ()

/-- Successful crosswalk fetch. -/
def cwOk : Except Unit DF := Except.ok tinyDF

/-- Quadkey function for the examples: read the precomputed key from column `qk0`. -/
def mkQK1 : Row → String := fun r =>
  match getV r "qk0" with
  | Value.vStr s => s
  | _ => ""

/-- Two points; the second one's quadkey has two crosswalk matches. -/
def pts1 : DF :=
  { idxName := "i",
    cols := ["qk0"],
    rows := [(Value.vNum 0, [("qk0", Value.vStr "a")]),
             (Value.vNum 1, [("qk0", Value.vStr "b")])] }

/-- Crosswalk with two overlapping regions for quadkey `b` (areas 5 and 10). -/
def cw1 : DF :=
  { idxName := "id",
    cols := ["county_id", "county_area_sqkm"],
    rows := [(Value.vStr "b", [("county_id", Value.vStr "c1"), ("county_area_sqkm", Value.vNum 5)]),
             (Value.vStr "b", [("county_id", Value.vStr "c2"), ("county_area_sqkm", Value.vNum 10)])] }

/-- A one-row resident `cbg` boundary table. -/
def bdf1 : DF :=
  { cols := ["id_cbg", "x_cbg"],
    rows := [(Value.vNum 0, [("id_cbg", Value.vStr "a"), ("x_cbg", Value.vNum 7)])] }

/-- State with `cbg` resident. -/
def stB : PkgState :=
  { crosswalk := none, boundary_data := [("cbg", bdf1)], bounds_features := [("cbg", [])] }

/-- Identifier-based input whose index label is 10 (not 0). -/
def baseB : DF :=
  { idxName := "pid", cols := ["cbg"], rows := [(Value.vNum 10, [("cbg", Value.vStr "a")])] }

/-- Resident `cbg` table carrying a boolean `intersects` feature. -/
def bdf8 : DF :=
  { cols := ["id_cbg", "coast_intersects_cbg"],
    rows := [(Value.vNum 0, [("id_cbg", Value.vStr "a"), ("coast_intersects_cbg", Value.vBool true)])] }

/-- State with the `intersects`-carrying `cbg` table resident. -/
def st8 : PkgState :=
  { crosswalk := none, boundary_data := [("cbg", bdf8)], bounds_features := [("cbg", [])] }

/-- The value the boundary-path enrichment of `baseB` against `st8` returns. -/
def out8 : DF :=
  match (enrichBoundary noLoader st8 baseB "cbg" "cbg").2.2 with
  | Except.ok d => d
  | Except.error _ => {}

/-- Identifier-based input whose `cbg` codes are numeric (so the in-place
string-cast changes the caller's table). -/
def c10pts : DF :=
  { idxName := "pid", cols := ["cbg"], rows := [(Value.vNum 0, [("cbg", Value.vNum 12)])] }

/-- State with `county` and `zipcode` resident (as after
`load(["county"])` then `load(["county","zipcode"])`). -/
def c4st : PkgState :=
  { crosswalk := some tinyDF,
    boundary_data := [("county", tinyDF), ("zipcode", tinyDF)],
    bounds_features := [("county", []), ("zipcode", [])] }

/-- Two points with distinct, uniquely matched quadkeys (no join fan-out). -/
def ptsW : DF :=
  { idxName := "i",
    cols := ["qk0"],
    rows := [(Value.vNum 0, [("qk0", Value.vStr "a")]),
             (Value.vNum 1, [("qk0", Value.vStr "b")])] }

/-- Crosswalk with one region per quadkey. -/
def cwW : DF :=
  { idxName := "id",
    cols := ["county_id"],
    rows := [(Value.vStr "a", [("county_id", Value.vStr "c1")]),
             (Value.vStr "b", [("county_id", Value.vStr "c2")])] }

/-- The value the coordinate-path enrichment of `ptsW` against `cwW` returns. -/
def outW : DF :=
  match enrichPoints cwW [] [] mkQK1 ptsW ResolveDupsEnum.largest_area with
  | Except.ok d => d
  | Except.error _ => {}

/-- Crosswalk for the duplicate-resolution witness: quadkey `b` is covered by
two counties with areas 5 and 10. -/
def cw7 : DF := cw1

/-- The crosswalk join of `pts1` against `cw1` (three rows: one for point 0,
two for point 1). -/
def j7 : DF := crosswalkJoin cw1 mkQK1 pts1

/-- The value the coordinate-path enrichment of `pts1` against `cw1` returns
(the join fans out on point 1, so duplicate resolution runs). -/
def outC1 : DF :=
  match enrichPoints cw1 [] [] mkQK1 pts1 ResolveDupsEnum.largest_area with
  | Except.ok d => d
  | Except.error _ => {}

/-! ### Helper lemmas: cell lookup -/

theorem getV_cons_self (c : String) (v : Value) (r : Row) : getV ((c, v) :: r) c = v := by
  simp [getV, List.find?]

theorem getV_cons_ne (c c2 : String) (v : Value) (r : Row) (h : c2 ≠ c) :
    getV ((c2, v) :: r) c = getV r c := by
  simp [getV, List.find?, h]

theorem hasColR_cons_self (c : String) (v : Value) (r : Row) : hasColR ((c, v) :: r) c = true := by
  simp [hasColR, List.find?]

theorem getV_append_left (r s : Row) (c : String) (h : hasColR r c = true) :
    getV (r ++ s) c = getV r c := by
  induction r with
  | nil => simp [hasColR] at h
  | cons p t ih =>
    by_cases hp : p.1 = c
    · obtain ⟨p1, p2⟩ := p
      subst hp
      simp [getV, List.find?]
    · obtain ⟨p1, p2⟩ := p
      simp only [List.cons_append]
      rw [getV_cons_ne _ _ _ _ hp, getV_cons_ne _ _ _ _ hp]
      apply ih
      simpa [hasColR, List.find?, hp] using h

theorem getV_append_right (r s : Row) (c : String) (h : hasColR r c = false) :
    getV (r ++ s) c = getV s c := by
  induction r with
  | nil => simp
  | cons p t ih =>
    obtain ⟨p1, p2⟩ := p
    by_cases hp : p1 = c
    · subst hp; simp [hasColR, List.find?] at h
    · simp only [List.cons_append]
      rw [getV_cons_ne _ _ _ _ hp]
      apply ih
      simpa [hasColR, List.find?, hp] using h

theorem hasColR_append_left (r s : Row) (c : String) (h : hasColR r c = true) :
    hasColR (r ++ s) c = true := by
  simp only [hasColR, List.find?_isSome] at h ⊢
  obtain ⟨p, hp, hc⟩ := h
  exact ⟨p, List.mem_append_left _ hp, hc⟩

theorem eraseCol_cons (p : String × Value) (t : Row) (c2 : String) :
    eraseCol (p :: t) c2 = if p.1 = c2 then eraseCol t c2 else p :: eraseCol t c2 := by
  by_cases hp : p.1 = c2 <;> simp [eraseCol, List.filter_cons, hp]

theorem getV_eraseCol_ne (r : Row) (c c2 : String) (h : c ≠ c2) :
    getV (eraseCol r c2) c = getV r c := by
  induction r with
  | nil => simp [eraseCol]
  | cons p t ih =>
    obtain ⟨p1, p2⟩ := p
    rw [eraseCol_cons]
    by_cases hp : p1 = c2
    · subst hp
      rw [if_pos rfl, ih, getV_cons_ne c p1 p2 t (Ne.symm h)]
    · simp only [hp, if_false]
      by_cases hc : p1 = c
      · subst hc; rw [getV_cons_self, getV_cons_self]
      · rw [getV_cons_ne _ _ _ _ hc, getV_cons_ne _ _ _ _ hc, ih]

theorem hasColR_eraseCol_ne (r : Row) (c c2 : String) (h : c ≠ c2) :
    hasColR (eraseCol r c2) c = hasColR r c := by
  induction r with
  | nil => simp [eraseCol]
  | cons p t ih =>
    obtain ⟨p1, p2⟩ := p
    rw [eraseCol_cons]
    by_cases hp : p1 = c2
    · subst hp
      rw [if_pos rfl, ih]
      simp [hasColR, List.find?, (Ne.symm h : p1 ≠ c)]
    · simp only [hp, if_false]
      by_cases hc : p1 = c
      · subst hc; simp [hasColR, List.find?]
      · simp only [hasColR, List.find?, hc, decide_eq_true_eq] at ih ⊢
        simpa using ih

theorem getV_nullFill (cols : List String) (c : String) (h : c ∈ cols) :
    getV (nullFill cols) c = Value.vNull := by
  induction cols with
  | nil => simp at h
  | cons c2 t ih =>
    by_cases hc : c2 = c
    · subst hc; simp [nullFill, getV_cons_self]
    · have hmem : c ∈ t := by
        rcases List.mem_cons.mp h with h1 | h1
        · exact absurd h1.symm hc
        · exact h1
      have : getV (nullFill (c2 :: t)) c = getV (nullFill t) c := by
        simp only [nullFill, List.map_cons]
        exact getV_cons_ne c c2 _ _ hc
      rw [this, ih hmem]

/-! ### Helper lemmas: the sort -/

theorem insertLe_perm {α : Type} (le : α → α → Bool) (x : α) (l : List α) :
    List.Perm (insertLe le x l) (x :: l) := by
  induction l with
  | nil => simp [insertLe]
  | cons y t ih =>
    by_cases h : le x y
    · simp [insertLe, h]
    · simp only [insertLe, h, if_false]
      exact List.Perm.trans (List.Perm.cons y ih) (List.Perm.swap x y t)

theorem sortLe_perm {α : Type} (le : α → α → Bool) (l : List α) :
    List.Perm (sortLe le l) l := by
  induction l with
  | nil => simp [sortLe]
  | cons x t ih =>
    exact List.Perm.trans (insertLe_perm le x (sortLe le t)) (List.Perm.cons x ih)

theorem mem_insertLe {α : Type} (le : α → α → Bool) (x a : α) (l : List α) :
    a ∈ insertLe le x l ↔ a = x ∨ a ∈ l := by
  rw [(insertLe_perm le x l).mem_iff]
  simp

theorem pairwise_insertLe {α : Type} (le : α → α → Bool)
    (htrans : ∀ a b c, le a b = true → le b c = true → le a c = true)
    (htot : ∀ a b, le a b = true ∨ le b a = true) (x : α) (l : List α)
    (hl : List.Pairwise (fun a b => le a b = true) l) :
    List.Pairwise (fun a b => le a b = true) (insertLe le x l) := by
  induction l with
  | nil => simp [insertLe]
  | cons y t ih =>
    rcases List.pairwise_cons.mp hl with ⟨hy, ht⟩
    by_cases h : le x y
    · simp only [insertLe, h, if_true]
      refine List.pairwise_cons.mpr ⟨?_, hl⟩
      intro b hb
      rcases List.mem_cons.mp hb with hb | hb
      · exact hb ▸ h
      · exact htrans x y b h (hy b hb)
    · simp only [insertLe, h, if_false]
      refine List.pairwise_cons.mpr ⟨?_, ih ht⟩
      intro b hb
      rcases (mem_insertLe le x b t).mp hb with hb | hb
      · rcases htot x y with hxy | hyx
        · exact absurd hxy h
        · exact hb ▸ hyx
      · exact hy b hb

theorem sorted_sortLe {α : Type} (le : α → α → Bool)
    (htrans : ∀ a b c, le a b = true → le b c = true → le a c = true)
    (htot : ∀ a b, le a b = true ∨ le b a = true) (l : List α) :
    List.Pairwise (fun a b => le a b = true) (sortLe le l) := by
  induction l with
  | nil => simp [sortLe]
  | cons x t ih => exact pairwise_insertLe le htrans htot x (sortLe le t) ih

theorem valueLe_trans (asc : Bool) (a b c : Value) (hab : valueLe asc a b = true)
    (hbc : valueLe asc b c = true) : valueLe asc a c = true := by
  cases a <;> cases b <;> cases c <;>
    simp_all [valueLe] <;> cases asc <;> simp_all <;> omega

theorem valueLe_total (asc : Bool) (a b : Value) :
    valueLe asc a b = true ∨ valueLe asc b a = true := by
  cases a <;> cases b <;> simp_all [valueLe] <;> cases asc <;> simp <;> omega

theorem lexLe_trans (asc : Bool) (a b c : List Value) (h1 : a.length = b.length)
    (h2 : b.length = c.length) (hab : lexLe asc a b = true)
    (hbc : lexLe asc b c = true) : lexLe asc a c = true := by
  induction a generalizing b c with
  | nil => simp [lexLe]
  | cons x xs ih =>
    cases b with
    | nil => simp at h1
    | cons y ys =>
      cases c with
      | nil => simp at h2
      | cons z zs =>
        simp only [List.length_cons, Nat.add_right_cancel_iff] at h1 h2
        simp only [lexLe] at hab hbc ⊢
        by_cases hxy : valueLe asc x y
        · by_cases hyz : valueLe asc y z
          · have hxz : valueLe asc x z = true := valueLe_trans asc x y z hxy hyz
            rw [if_pos hxz]
            by_cases hyx : valueLe asc y x
            · -- x ≈ y
              rw [if_pos hxy, if_pos hyx] at hab
              by_cases hzy : valueLe asc z y
              · -- y ≈ z, so x ≈ z: recurse on tails
                rw [if_pos hyz, if_pos hzy] at hbc
                have hzx : valueLe asc z x = true := valueLe_trans asc z y x hzy hyx
                rw [if_pos hzx]
                exact ih ys zs h1 h2 hab hbc
              · -- y < z strictly, so x < z strictly
                have hzx : valueLe asc z x = false := by
                  by_contra hne
                  have hzx2 : valueLe asc z x = true := by
                    cases hzx3 : valueLe asc z x
                    · exact absurd hzx3 hne
                    · rfl
                  exact absurd (valueLe_trans asc z x y hzx2 hxy) (by simpa using hzy)
                rw [hzx]
                simp
            · -- x < y strictly, and y ≤ z: x < z strictly
              have hzx : valueLe asc z x = false := by
                by_contra hne
                have hzx2 : valueLe asc z x = true := by
                  cases hzx3 : valueLe asc z x
                  · exact absurd hzx3 hne
                  · rfl
                exact absurd (valueLe_trans asc y z x hyz hzx2) (by simpa using hyx)
              rw [hzx]
              simp
          · rw [if_neg (by simpa using hyz)] at hbc
            simp at hbc
        · rw [if_neg (by simpa using hxy)] at hab
          simp at hab

theorem lexLe_total (asc : Bool) (a b : List Value) :
    lexLe asc a b = true ∨ lexLe asc b a = true := by
  induction a generalizing b with
  | nil => left; simp [lexLe]
  | cons x xs ih =>
    cases b with
    | nil => right; simp [lexLe]
    | cons y ys =>
      simp only [lexLe]
      rcases valueLe_total asc x y with hxy | hyx
      · by_cases hyx2 : valueLe asc y x
        · rcases ih ys with h | h
          · left; rw [if_pos hxy, if_pos hyx2]; exact h
          · right; rw [if_pos hyx2, if_pos hxy]; exact h
        · left; rw [if_pos hxy, if_neg (by simpa using hyx2)]
      · by_cases hxy2 : valueLe asc x y
        · rcases ih ys with h | h
          · left; rw [if_pos hxy2, if_pos hyx]; exact h
          · right; rw [if_pos hyx, if_pos hxy2]; exact h
        · right; rw [if_pos hyx, if_neg (by simpa using hxy2)]

theorem lexLe_single (asc : Bool) (a b : Value) :
    lexLe asc [a] [b] = valueLe asc a b := by
  by_cases h : valueLe asc a b <;> by_cases h2 : valueLe asc b a <;> simp [lexLe, h, h2]

/-! ### Helper lemmas: left joins as flat maps -/

theorem length_flatMap_ge {α β : Type} (f : α → List β) (l : List α)
    (h : ∀ x ∈ l, f x ≠ []) : l.length ≤ (l.flatMap f).length := by
  induction l with
  | nil => simp
  | cons x t ih =>
    have hx : f x ≠ [] := h x (List.mem_cons_self x t)
    have hx1 : 1 ≤ (f x).length := by
      cases hfx : f x with
      | nil => exact absurd hfx hx
      | cons a b => simp
    have ht : t.length ≤ (t.flatMap f).length := ih (fun y hy => h y (List.mem_cons_of_mem x hy))
    simp only [List.flatMap_cons, List.length_append, List.length_cons]
    omega

theorem flatMap_singleton_map {α β γ : Type} (f : α → List β) (l : List α)
    (hne : ∀ x ∈ l, f x ≠ []) (hlen : (l.flatMap f).length = l.length)
    (g : β → γ) (h : α → γ) (hg : ∀ x ∈ l, ∀ y ∈ f x, g y = h x) :
    (l.flatMap f).map g = l.map h := by
  induction l with
  | nil => simp
  | cons x t ih =>
    have hx : f x ≠ [] := hne x (List.mem_cons_self x t)
    have ht : t.length ≤ (t.flatMap f).length :=
      length_flatMap_ge f t (fun y hy => hne y (List.mem_cons_of_mem x hy))
    rw [List.flatMap_cons, List.length_append] at hlen
    cases hfx : f x with
    | nil => exact absurd hfx hx
    | cons a bs =>
      rw [hfx] at hlen
      have hbs : bs = [] := by
        cases bs with
        | nil => rfl
        | cons b bs2 =>
          exfalso
          simp only [List.length_cons] at hlen
          omega
      subst hbs
      simp only [List.length_cons, List.length_nil, List.length_cons] at hlen
      have hlent : (t.flatMap f).length = t.length := by omega
      rw [List.flatMap_cons, hfx, List.map_append, List.map_cons]
      have hga : g a = h x := hg x (List.mem_cons_self x t) a (hfx ▸ List.mem_cons_self a [])
      rw [hga, ih (fun y hy => hne y (List.mem_cons_of_mem x hy)) hlent
        (fun y hy z hz => hg y (List.mem_cons_of_mem x hy) z hz)]
      simp

theorem mem_map_flatMap_iff {α β γ : Type} (f : α → List β) (l : List α)
    (hne : ∀ x ∈ l, f x ≠ []) (g : β → γ) (h : α → γ)
    (hg : ∀ x ∈ l, ∀ y ∈ f x, g y = h x) (z : γ) :
    z ∈ (l.flatMap f).map g ↔ z ∈ l.map h := by
  constructor
  · intro hz
    rcases List.mem_map.mp hz with ⟨y, hy, hgy⟩
    rcases List.mem_flatMap.mp hy with ⟨x, hx, hyx⟩
    exact List.mem_map.mpr ⟨x, hx, by rw [← hg x hx y hyx, hgy]⟩
  · intro hz
    rcases List.mem_map.mp hz with ⟨x, hx, hgx⟩
    have hfx : f x ≠ [] := hne x hx
    cases hfx2 : f x with
    | nil => exact absurd hfx2 hfx
    | cons a bs =>
      refine List.mem_map.mpr ⟨a, List.mem_flatMap.mpr ⟨x, hx, hfx2 ▸ List.mem_cons_self a bs⟩, ?_⟩
      rw [hg x hx a (hfx2 ▸ List.mem_cons_self a bs), hgx]

/-! ### Helper lemmas: drop_duplicates -/

theorem mem_dedupKey {c : String} {seen : List Value} {l : List (Value × Row)}
    {p : Value × Row} (h : p ∈ dedupKey c seen l) : p ∈ l := by
  induction l generalizing seen with
  | nil => simp [dedupKey] at h
  | cons q t ih =>
    simp only [dedupKey] at h
    by_cases hk : getV q.2 c ∈ seen
    · simp only [hk, if_true] at h
      exact List.mem_cons_of_mem q (ih h)
    · simp only [hk, if_false] at h
      rcases List.mem_cons.mp h with h1 | h1
      · exact h1 ▸ List.mem_cons_self q t
      · exact List.mem_cons_of_mem q (ih h1)

theorem countP_dedupKey (c : String) (v : Value) (seen : List Value) (l : List (Value × Row)) :
    (dedupKey c seen l).countP (fun p => decide (getV p.2 c = v)) =
      if v ∉ seen ∧ (∃ p ∈ l, getV p.2 c = v) then 1 else 0 := by
  induction l generalizing seen with
  | nil => simp [dedupKey]
  | cons q t ih =>
    simp only [dedupKey]
    by_cases hqv : getV q.2 c = v
    · by_cases hvs : v ∈ seen
      · have hk : getV q.2 c ∈ seen := by rw [hqv]; exact hvs
        rw [if_pos hk, ih, if_neg (by simp [hvs]), if_neg (by simp [hvs])]
      · have hk : getV q.2 c ∉ seen := by rw [hqv]; exact hvs
        rw [if_neg hk]
        have hd : (fun (p : Value × Row) => decide (getV p.2 c = v)) q = true := by simp [hqv]
        rw [List.countP_cons_of_pos (fun (p : Value × Row) => decide (getV p.2 c = v))
          (dedupKey c (getV q.2 c :: seen) t) hd, ih]
        have hseen2 : v ∈ getV q.2 c :: seen := by rw [hqv]; exact List.mem_cons_self _ _
        rw [if_neg (by simp [hseen2]),
          if_pos ⟨hvs, ⟨q, List.mem_cons_self q t, hqv⟩⟩]
    · have hiff : (v ∉ seen ∧ ∃ p ∈ t, getV p.2 c = v) ↔
          (v ∉ seen ∧ ∃ p ∈ q :: t, getV p.2 c = v) := by
        constructor
        · rintro ⟨hs, p, hp, hpv⟩
          exact ⟨hs, p, List.mem_cons_of_mem q hp, hpv⟩
        · rintro ⟨hs, p, hp, hpv⟩
          rcases List.mem_cons.mp hp with h1 | h1
          · exact absurd (h1 ▸ hpv) hqv
          · exact ⟨hs, p, h1, hpv⟩
      by_cases hk : getV q.2 c ∈ seen
      · rw [if_pos hk, ih, if_congr hiff rfl rfl]
      · rw [if_neg hk]
        have hd : (fun (p : Value × Row) => decide (getV p.2 c = v)) q = false := by simp [hqv]
        rw [List.countP_cons_of_neg (fun (p : Value × Row) => decide (getV p.2 c = v))
          (dedupKey c (getV q.2 c :: seen) t) (by simp [hqv]), ih]
        have hiff2 : (v ∉ getV q.2 c :: seen ∧ ∃ p ∈ t, getV p.2 c = v) ↔
            (v ∉ seen ∧ ∃ p ∈ q :: t, getV p.2 c = v) := by
          constructor
          · rintro ⟨hs, hex⟩
            exact hiff.mp ⟨fun hh => hs (List.mem_cons_of_mem _ hh), hex⟩
          · rintro ⟨hs, hex⟩
            have h2 := hiff.mpr ⟨hs, hex⟩
            refine ⟨?_, h2.2⟩
            intro hmem
            rcases List.mem_cons.mp hmem with h1 | h1
            · exact hqv h1.symm
            · exact hs h1
        rw [if_congr hiff2 rfl rfl]

theorem dedupKey_filter_of_absent (c : String) (v : Value) (seen : List Value)
    (l : List (Value × Row)) (h : ∀ p ∈ l, getV p.2 c ≠ v) :
    (dedupKey c seen l).filter (fun p => decide (getV p.2 c = v)) = [] := by
  rw [List.filter_eq_nil_iff]
  intro p hp
  simp only [decide_eq_true_eq]
  exact h p (mem_dedupKey hp)

theorem dedupKey_filter_of_seen (c : String) (v : Value) (seen : List Value)
    (l : List (Value × Row)) (h : v ∈ seen) :
    (dedupKey c seen l).filter (fun p => decide (getV p.2 c = v)) = [] := by
  induction l generalizing seen with
  | nil => simp [dedupKey]
  | cons q t ih =>
    simp only [dedupKey]
    by_cases hk : getV q.2 c ∈ seen
    · rw [if_pos hk]; exact ih seen h
    · rw [if_neg hk]
      have hqv : getV q.2 c ≠ v := fun he => hk (he ▸ h)
      rw [List.filter_cons, if_neg (by simpa using hqv)]
      exact ih _ (List.mem_cons_of_mem _ h)

theorem dedupKey_filter_first (c : String) (v : Value) (seen : List Value)
    (l1 l2 : List (Value × Row)) (x : Value × Row) (hx : getV x.2 c = v) (hv : v ∉ seen)
    (hl1 : ∀ p ∈ l1, getV p.2 c ≠ v) :
    (dedupKey c seen (l1 ++ x :: l2)).filter (fun p => decide (getV p.2 c = v)) = [x] := by
  induction l1 generalizing seen with
  | nil =>
    simp only [List.nil_append, dedupKey]
    rw [hx, if_neg hv, List.filter_cons, if_pos (by simpa using hx)]
    rw [dedupKey_filter_of_seen c v _ l2 (hx ▸ List.mem_cons_self v seen)]
  | cons q t ih =>
    have hqv : getV q.2 c ≠ v := hl1 q (List.mem_cons_self q t)
    simp only [List.cons_append, dedupKey]
    by_cases hk : getV q.2 c ∈ seen
    · rw [if_pos hk]
      exact ih seen hv (fun p hp => hl1 p (List.mem_cons_of_mem q hp))
    · rw [if_neg hk, List.filter_cons, if_neg (by simpa using hqv)]
      refine ih _ ?_ (fun p hp => hl1 p (List.mem_cons_of_mem q hp))
      intro hmem
      rcases List.mem_cons.mp hmem with h1 | h1
      · exact hqv h1.symm
      · exact hv h1

/-! ### Helper lemmas: association lists (Python dicts) -/

theorem alookup_cons {β : Type} (p : String × β) (l : List (String × β)) (k : String) :
    alookup (p :: l) k = if p.1 = k then some p.2 else alookup l k := by
  by_cases h : p.1 = k <;> simp [alookup, List.find?, h]

theorem alookup_isSome_iff_mem {β : Type} (l : List (String × β)) (k : String) :
    (alookup l k).isSome ↔ k ∈ l.map (fun p => p.1) := by
  induction l with
  | nil => simp [alookup]
  | cons p t ih =>
    rw [alookup_cons]
    by_cases h : p.1 = k
    · simp [h]
    · simp only [h, if_false, List.map_cons, List.mem_cons, ih]
      constructor
      · intro hh; right; exact hh
      · intro hh
        rcases hh with hh | hh
        · exact absurd hh.symm h
        · exact hh

theorem alookup_append_right {β : Type} (l1 l2 : List (String × β)) (k : String)
    (h : alookup l1 k = none) : alookup (l1 ++ l2) k = alookup l2 k := by
  induction l1 with
  | nil => simp
  | cons p t ih =>
    rw [alookup_cons] at h
    by_cases hp : p.1 = k
    · rw [if_pos hp] at h; exact absurd h (by simp)
    · rw [if_neg hp] at h
      rw [List.cons_append, alookup_cons, if_neg hp]
      exact ih h

theorem alookup_append_left {β : Type} (l1 l2 : List (String × β)) (k : String)
    (h : (alookup l1 k).isSome = true) : alookup (l1 ++ l2) k = alookup l1 k := by
  induction l1 with
  | nil => simp [alookup] at h
  | cons p t ih =>
    rw [alookup_cons] at h
    rw [List.cons_append, alookup_cons, alookup_cons]
    by_cases hp : p.1 = k
    · rw [if_pos hp, if_pos hp]
    · rw [if_neg hp, if_neg hp]
      rw [if_neg hp] at h
      exact ih h

theorem alookup_map_replace {β : Type} (l : List (String × β)) (k : String) (v : β) :
    alookup (l.map (fun p => if p.1 = k then (k, v) else p)) k =
      if (alookup l k).isSome then some v else none := by
  induction l with
  | nil => simp [alookup]
  | cons p t ih =>
    by_cases hp : p.1 = k
    · have hmap : (p :: t).map (fun p => if p.1 = k then (k, v) else p)
          = (k, v) :: t.map (fun p => if p.1 = k then (k, v) else p) := by
        simp [hp]
      rw [hmap, alookup_cons, if_pos rfl, alookup_cons, if_pos hp]
      simp
    · have hmap : (p :: t).map (fun p => if p.1 = k then (k, v) else p)
          = p :: t.map (fun p => if p.1 = k then (k, v) else p) := by
        simp [hp]
      rw [hmap, alookup_cons, if_neg hp, alookup_cons, if_neg hp]
      exact ih

theorem alookup_map_replace_ne {β : Type} (l : List (String × β)) (k k2 : String) (v : β)
    (h : k ≠ k2) :
    alookup (l.map (fun p => if p.1 = k2 then (k2, v) else p)) k = alookup l k := by
  induction l with
  | nil => simp [alookup]
  | cons p t ih =>
    by_cases hp : p.1 = k2
    · have hmap : (p :: t).map (fun p => if p.1 = k2 then (k2, v) else p)
          = (k2, v) :: t.map (fun p => if p.1 = k2 then (k2, v) else p) := by
        simp [hp]
      rw [hmap, alookup_cons, if_neg (fun hh : k2 = k => h hh.symm), alookup_cons,
        if_neg (by rw [hp]; exact fun hh => h hh.symm)]
      exact ih
    · have hmap : (p :: t).map (fun p => if p.1 = k2 then (k2, v) else p)
          = p :: t.map (fun p => if p.1 = k2 then (k2, v) else p) := by
        simp [hp]
      rw [hmap, alookup_cons, alookup_cons]
      by_cases hpk : p.1 = k
      · rw [if_pos hpk, if_pos hpk]
      · rw [if_neg hpk, if_neg hpk]; exact ih

theorem alookup_upsert_self {β : Type} (l : List (String × β)) (k : String) (v : β) :
    alookup (upsert l k v) k = some v := by
  unfold upsert
  by_cases h : (alookup l k).isSome
  · rw [if_pos h, alookup_map_replace, if_pos h]
  · rw [if_neg h, alookup_append_right l [(k, v)] k (Option.not_isSome_iff_eq_none.mp h)]
    simp [alookup_cons]

theorem alookup_upsert_ne {β : Type} (l : List (String × β)) (k k2 : String) (v : β)
    (h : k ≠ k2) : alookup (upsert l k2 v) k = alookup l k := by
  unfold upsert
  by_cases h2 : (alookup l k2).isSome
  · rw [if_pos h2]
    exact alookup_map_replace_ne l k k2 v h
  · rw [if_neg h2]
    by_cases h3 : (alookup l k).isSome
    · exact alookup_append_left l [(k2, v)] k h3
    · have h3n : alookup l k = none := Option.not_isSome_iff_eq_none.mp h3
      rw [alookup_append_right l [(k2, v)] k h3n, alookup_cons,
        if_neg (fun hh : k2 = k => h hh.symm), h3n]
      simp [alookup]

theorem eraseKey_cons {β : Type} (p : String × β) (l : List (String × β)) (k : String) :
    eraseKey (p :: l) k = if p.1 = k then eraseKey l k else p :: eraseKey l k := by
  by_cases h : p.1 = k <;> simp [eraseKey, List.filter_cons, h]

theorem alookup_eraseKey_self {β : Type} (l : List (String × β)) (k : String) :
    alookup (eraseKey l k) k = none := by
  induction l with
  | nil => simp [eraseKey, alookup]
  | cons p t ih =>
    rw [eraseKey_cons]
    by_cases h : p.1 = k
    · rw [if_pos h]; exact ih
    · rw [if_neg h, alookup_cons, if_neg h]; exact ih

theorem alookup_eraseKey_ne {β : Type} (l : List (String × β)) (k k2 : String) (h : k ≠ k2) :
    alookup (eraseKey l k2) k = alookup l k := by
  induction l with
  | nil => simp [eraseKey]
  | cons p t ih =>
    rw [eraseKey_cons]
    by_cases hp : p.1 = k2
    · rw [if_pos hp, alookup_cons, if_neg (by rw [hp]; exact fun hh => h hh.symm)]
      exact ih
    · rw [if_neg hp, alookup_cons, alookup_cons]
      by_cases hpk : p.1 = k
      · rw [if_pos hpk, if_pos hpk]
      · rw [if_neg hpk, if_neg hpk]; exact ih

theorem alookup_foldl_eraseKey {β : Type} (ks : List String) (l : List (String × β)) (k : String) :
    alookup (ks.foldl eraseKey l) k = if k ∈ ks then none else alookup l k := by
  induction ks generalizing l with
  | nil => simp
  | cons k2 t ih =>
    rw [List.foldl_cons, ih]
    by_cases ht : k ∈ t
    · simp [ht]
    · rw [if_neg ht]
      by_cases hk : k = k2
      · rw [hk, if_pos (List.mem_cons_self k2 t)]
        exact alookup_eraseKey_self l k2
      · rw [if_neg (by simp [hk, ht]), alookup_eraseKey_ne l k k2 hk]

theorem keys_upsert {β : Type} (l : List (String × β)) (k : String) (v : β) :
    (upsert l k v).map (fun p => p.1) =
      if (alookup l k).isSome then l.map (fun p => p.1) else l.map (fun p => p.1) ++ [k] := by
  unfold upsert
  by_cases h : (alookup l k).isSome
  · rw [if_pos h, if_pos h, List.map_map]
    apply List.map_congr_left
    intro p _
    by_cases hp : p.1 = k <;> simp [hp]
  · rw [if_neg h, if_neg h]
    simp

theorem mem_keys_upsert {β : Type} (l : List (String × β)) (k k2 : String) (v : β) :
    k ∈ (upsert l k2 v).map (fun p => p.1) ↔ k = k2 ∨ k ∈ l.map (fun p => p.1) := by
  rw [keys_upsert]
  by_cases h : (alookup l k2).isSome
  · rw [if_pos h]
    constructor
    · intro hh; right; exact hh
    · intro hh
      rcases hh with hh | hh
      · rw [hh]; exact (alookup_isSome_iff_mem l k2).mp h
      · exact hh
  · rw [if_neg h]
    simp only [List.mem_append, List.mem_singleton]
    tauto

theorem nodup_keys_upsert {β : Type} (l : List (String × β)) (k : String) (v : β)
    (h : (l.map (fun p => p.1)).Nodup) : ((upsert l k v).map (fun p => p.1)).Nodup := by
  rw [keys_upsert]
  by_cases hs : (alookup l k).isSome
  · rw [if_pos hs]; exact h
  · rw [if_neg hs]
    rw [List.nodup_append]
    refine ⟨h, List.nodup_singleton k, ?_⟩
    intro a ha hb
    rw [List.mem_singleton] at hb
    subst hb
    exact hs ((alookup_isSome_iff_mem l a).mpr ha)

theorem alookup_eq_of_mem_nodup {β : Type} (l : List (String × β)) (k : String) (v : β)
    (hnd : (l.map (fun p => p.1)).Nodup) (hmem : (k, v) ∈ l) : alookup l k = some v := by
  induction l with
  | nil => simp at hmem
  | cons p t ih =>
    rw [List.map_cons, List.nodup_cons] at hnd
    rcases List.mem_cons.mp hmem with h1 | h1
    · rw [← h1, alookup_cons, if_pos rfl]
    · rw [alookup_cons]
      by_cases hp : p.1 = k
      · exfalso
        apply hnd.1
        rw [hp]
        exact List.mem_map.mpr ⟨(k, v), h1, rfl⟩
      · rw [if_neg hp]
        exact ih hnd.2 h1

theorem nodup_keys_foldl_upsert {β : Type} (ks : List String) (g : String → β)
    (init : List (String × β)) (h : (init.map (fun p => p.1)).Nodup) :
    ((ks.foldl (fun acc b => upsert acc b (g b)) init).map (fun p => p.1)).Nodup := by
  induction ks generalizing init with
  | nil => exact h
  | cons b t ih => exact ih (upsert init b (g b)) (nodup_keys_upsert init b (g b) h)

theorem mem_keys_foldl_upsert {β : Type} (ks : List String) (g : String → β)
    (init : List (String × β)) (k : String) :
    k ∈ ((ks.foldl (fun acc b => upsert acc b (g b)) init).map (fun p => p.1)) ↔
      k ∈ ks ∨ k ∈ init.map (fun p => p.1) := by
  induction ks generalizing init with
  | nil => simp
  | cons b t ih =>
    rw [List.foldl_cons, ih, mem_keys_upsert]
    simp only [List.mem_cons]
    tauto

theorem nodup_keys_foldl_featureStep (fs : List String) (ks : List String)
    (init : List (String × List String)) (h : (init.map (fun p => p.1)).Nodup) :
    ((ks.foldl (fun acc kb =>
        if fs.filter (fun f => strEndsWith f kb) ≠ [] then
          upsert acc kb (fs.filter (fun f => strEndsWith f kb))
        else acc) init).map (fun p => p.1)).Nodup := by
  induction ks generalizing init with
  | nil => exact h
  | cons b t ih =>
    simp only [List.foldl_cons]
    by_cases hb : fs.filter (fun f => strEndsWith f b) ≠ []
    · rw [if_pos hb]
      exact ih _ (nodup_keys_upsert init b _ h)
    · rw [if_neg hb]
      exact ih _ h

theorem nodup_keys_inferBoundsD0 (bs : List String) :
    ((inferBoundsD0 bs).map (fun p => p.1)).Nodup := by
  unfold inferBoundsD0
  by_cases hbs : bs ≠ []
  · rw [if_pos hbs]
    exact nodup_keys_foldl_upsert _ (fun _ => ([] : List String)) [] (by simp)
  · rw [if_neg hbs]; simp

theorem nodup_keys_inferBoundsD1 (fs : List String) (d0 : List (String × List String))
    (h : (d0.map (fun p => p.1)).Nodup) : ((inferBoundsD1 fs d0).map (fun p => p.1)).Nodup := by
  unfold inferBoundsD1
  by_cases hfs : fs ≠ []
  · rw [if_pos hfs]
    exact nodup_keys_foldl_featureStep fs KNOWN_BOUNDARIES d0 h
  · rw [if_neg hfs]; exact h

theorem nodup_keys_infer_bounds (bs fs : List String) :
    ((infer_bounds bs fs).map (fun p => p.1)).Nodup := by
  unfold infer_bounds
  by_cases hd : inferBoundsD1 fs (inferBoundsD0 bs) = []
  · rw [if_pos hd]
    decide
  · rw [if_neg hd]
    exact nodup_keys_inferBoundsD1 fs _ (nodup_keys_inferBoundsD0 bs)

/-! ### Helper lemmas: the load/reconcile machinery -/

theorem loadBoundsAux_skip_all (loader : String → Except Unit DF)
    (bf0 tgt : List (String × List String)) (bd : List (String × DF)) (fetched : List String)
    (h : ∀ p ∈ tgt, alookup bf0 p.1 = some p.2) :
    loadBoundsAux loader bf0 tgt bd fetched = (bd, fetched, true) := by
  induction tgt with
  | nil => rfl
  | cons p rest ih =>
    obtain ⟨b, feats⟩ := p
    have hb : alookup bf0 b = some feats := h (b, feats) (List.mem_cons_self _ _)
    simp only [loadBoundsAux, hb, if_pos]
    exact ih (fun q hq => h q (List.mem_cons_of_mem _ hq))

theorem loadBoundsAux_mono (loader : String → Except Unit DF)
    (bf0 tgt : List (String × List String)) (bd : List (String × DF)) (fetched : List String)
    (b : String) (h : (alookup bd b).isSome = true) :
    (alookup (loadBoundsAux loader bf0 tgt bd fetched).1 b).isSome = true := by
  induction tgt generalizing bd fetched with
  | nil => exact h
  | cons p rest ih =>
    obtain ⟨b2, feats⟩ := p
    simp only [loadBoundsAux]
    by_cases hs : alookup bf0 b2 = some feats
    · rw [if_pos hs]; exact ih bd fetched h
    · rw [if_neg hs]
      cases hl : loadOne loader b2 feats with
      | error e => exact h
      | ok df =>
        apply ih
        by_cases hbb : b = b2
        · rw [hbb, alookup_upsert_self]; rfl
        · rw [alookup_upsert_ne bd b b2 df hbb]; exact h

theorem loadBoundsAux_keys_bound (loader : String → Except Unit DF)
    (bf0 tgt : List (String × List String)) (bd : List (String × DF)) (fetched : List String)
    (b : String) (h : (alookup (loadBoundsAux loader bf0 tgt bd fetched).1 b).isSome = true) :
    (alookup bd b).isSome = true ∨ b ∈ tgt.map (fun p => p.1) := by
  induction tgt generalizing bd fetched with
  | nil => exact Or.inl h
  | cons p rest ih =>
    obtain ⟨b2, feats⟩ := p
    simp only [loadBoundsAux] at h
    by_cases hs : alookup bf0 b2 = some feats
    · rw [if_pos hs] at h
      rcases ih bd fetched h with h1 | h1
      · exact Or.inl h1
      · exact Or.inr (List.mem_cons_of_mem _ h1)
    · rw [if_neg hs] at h
      cases hl : loadOne loader b2 feats with
      | error e => rw [hl] at h; exact Or.inl h
      | ok df =>
        rw [hl] at h
        rcases ih _ _ h with h1 | h1
        · by_cases hbb : b = b2
          · exact Or.inr (by rw [hbb]; exact List.mem_cons_self _ _)
          · rw [alookup_upsert_ne bd b b2 df hbb] at h1
            exact Or.inl h1
        · exact Or.inr (List.mem_cons_of_mem _ h1)

theorem loadBoundsAux_covers (loader : String → Except Unit DF)
    (bf0 tgt : List (String × List String)) (bd : List (String × DF)) (fetched : List String)
    (hok : (loadBoundsAux loader bf0 tgt bd fetched).2.2 = true)
    (hseed : ∀ b2 feats, alookup bf0 b2 = some feats → (alookup bd b2).isSome = true) :
    ∀ p ∈ tgt, (alookup (loadBoundsAux loader bf0 tgt bd fetched).1 p.1).isSome = true := by
  induction tgt generalizing bd fetched with
  | nil => simp
  | cons q rest ih =>
    obtain ⟨b2, feats⟩ := q
    intro p hp
    simp only [loadBoundsAux] at hok ⊢
    by_cases hs : alookup bf0 b2 = some feats
    · rw [if_pos hs] at hok ⊢
      rcases List.mem_cons.mp hp with h1 | h1
      · have : (alookup bd p.1).isSome = true := by
          rw [h1]
          exact hseed b2 feats hs
        exact loadBoundsAux_mono loader bf0 rest bd fetched p.1 this
      · exact ih bd fetched hok hseed p h1
    · rw [if_neg hs] at hok ⊢
      cases hl : loadOne loader b2 feats with
      | error e =>
        rw [hl] at hok
        simp at hok
      | ok df =>
        rw [hl] at hok
        have hseed2 : ∀ b3 feats3, alookup bf0 b3 = some feats3 →
            (alookup (upsert bd b2 df) b3).isSome = true := by
          intro b3 feats3 h3
          by_cases hbb : b3 = b2
          · rw [hbb, alookup_upsert_self]; rfl
          · rw [alookup_upsert_ne bd b3 b2 df hbb]
            exact hseed b3 feats3 h3
        rcases List.mem_cons.mp hp with h1 | h1
        · have : (alookup (upsert bd b2 df) p.1).isSome = true := by
            rw [h1, alookup_upsert_self]; rfl
          exact loadBoundsAux_mono loader bf0 rest _ _ p.1 this
        · exact ih _ _ hok hseed2 p h1

theorem loadBoundsFeatures_cases (loader : String → Except Unit DF) (st : PkgState)
    (tgt : List (String × List String)) :
    loadBoundsFeatures loader st tgt =
      (if (loadBoundsAux loader st.bounds_features tgt st.boundary_data []).2.2 = true then
        ({ crosswalk := st.crosswalk,
           boundary_data :=
             (((st.bounds_features.filter (fun p => (alookup tgt p.1).isNone)).map
               (fun p => p.1)).foldl eraseKey
               (loadBoundsAux loader st.bounds_features tgt st.boundary_data []).1),
           bounds_features := tgt },
         (loadBoundsAux loader st.bounds_features tgt st.boundary_data []).2.1, true)
      else ({ st with
              boundary_data := (loadBoundsAux loader st.bounds_features tgt st.boundary_data []).1 },
            (loadBoundsAux loader st.bounds_features tgt st.boundary_data []).2.1, false)) := by
  rcases hA : loadBoundsAux loader st.bounds_features tgt st.boundary_data [] with ⟨bd, fetched, ok⟩
  cases ok
  · simp [loadBoundsFeatures, hA]
  · simp [loadBoundsFeatures, hA]

theorem loadReconcile_eq (loader : String → Except Unit DF) (st : PkgState)
    (bs fs : List String) (cwF : Bool) :
    loadReconcile loader st bs fs cwF =
      { state := (loadBoundsFeatures loader st (infer_bounds bs fs)).1,
        fetched := (loadBoundsFeatures loader st (infer_bounds bs fs)).2.1,
        cwFetched := cwF,
        ok := (loadBoundsFeatures loader st (infer_bounds bs fs)).2.2 } := by
  rcases h : loadBoundsFeatures loader st (infer_bounds bs fs) with ⟨st2, fetched, ok⟩
  simp [loadReconcile, h]

theorem loadBoundsFeatures_ok_fields (loader : String → Except Unit DF) (st : PkgState)
    (tgt : List (String × List String))
    (hok : (loadBoundsFeatures loader st tgt).2.2 = true) :
    (loadBoundsFeatures loader st tgt).1.bounds_features = tgt ∧
      (loadBoundsFeatures loader st tgt).1.crosswalk = st.crosswalk := by
  rw [loadBoundsFeatures_cases] at hok ⊢
  by_cases hA : (loadBoundsAux loader st.bounds_features tgt st.boundary_data []).2.2 = true
  · rw [if_pos hA]
    exact ⟨rfl, rfl⟩
  · rw [if_neg hA] at hok
    simp at hok

theorem loadBoundsFeatures_fail_bounds (loader : String → Except Unit DF) (st : PkgState)
    (tgt : List (String × List String))
    (h : (loadBoundsFeatures loader st tgt).2.2 = false) :
    (loadBoundsFeatures loader st tgt).1.bounds_features = st.bounds_features := by
  rw [loadBoundsFeatures_cases] at h ⊢
  by_cases hA : (loadBoundsAux loader st.bounds_features tgt st.boundary_data []).2.2 = true
  · rw [if_pos hA] at h
    simp at h
  · rw [if_neg hA]

theorem loadBoundsFeatures_noop (loader : String → Except Unit DF) (st1 : PkgState)
    (tgt : List (String × List String)) (hbf : st1.bounds_features = tgt)
    (hnd : (tgt.map (fun p => p.1)).Nodup) :
    loadBoundsFeatures loader st1 tgt = (st1, [], true) := by
  have hskip : ∀ p ∈ tgt, alookup st1.bounds_features p.1 = some p.2 := by
    rw [hbf]
    intro p hp
    exact alookup_eq_of_mem_nodup tgt p.1 p.2 hnd hp
  have hA : loadBoundsAux loader st1.bounds_features tgt st1.boundary_data []
      = (st1.boundary_data, [], true) :=
    loadBoundsAux_skip_all loader st1.bounds_features tgt st1.boundary_data [] hskip
  rw [loadBoundsFeatures_cases, hA]
  simp only [if_pos]
  have hrem : st1.bounds_features.filter (fun p => (alookup tgt p.1).isNone) = [] := by
    rw [List.filter_eq_nil_iff]
    intro p hp
    have hp2 : p ∈ tgt := hbf ▸ hp
    have h2 : alookup tgt p.1 = some p.2 := alookup_eq_of_mem_nodup tgt p.1 p.2 hnd hp2
    simp [h2]
  rw [hrem]
  simp only [List.map_nil, List.foldl_nil]
  rw [← hbf]

theorem loadBoundsFeatures_ok_resident (loader : String → Except Unit DF) (st : PkgState)
    (tgt : List (String × List String))
    (hinv : ∀ b, (alookup st.boundary_data b).isSome = true ↔
      (alookup st.bounds_features b).isSome = true)
    (hok : (loadBoundsFeatures loader st tgt).2.2 = true) (b : String) :
    (alookup (loadBoundsFeatures loader st tgt).1.boundary_data b).isSome = true ↔
      (alookup tgt b).isSome = true := by
  rw [loadBoundsFeatures_cases] at hok ⊢
  by_cases hA : (loadBoundsAux loader st.bounds_features tgt st.boundary_data []).2.2 = true
  · rw [if_pos hA]
    simp only
    rw [alookup_foldl_eraseKey]
    by_cases hrem : b ∈ (st.bounds_features.filter (fun p => (alookup tgt p.1).isNone)).map
        (fun p => p.1)
    · rw [if_pos hrem]
      rcases List.mem_map.mp hrem with ⟨p, hp, hpb⟩
      have hnone : (alookup tgt p.1).isNone = true := (List.mem_filter.mp hp).2
      rw [hpb] at hnone
      constructor
      · intro hh; simp at hh
      · intro hh
        rw [Option.isNone_iff_eq_none] at hnone
        rw [hnone] at hh
        simp at hh
    · rw [if_neg hrem]
      constructor
      · intro hh
        rcases loadBoundsAux_keys_bound loader st.bounds_features tgt st.boundary_data [] b hh
          with h1 | h1
        · -- was resident before: its bounds_features entry exists; were it absent from the
          -- target it would have been in the eviction list
          have hbf : (alookup st.bounds_features b).isSome = true := (hinv b).mp h1
          by_contra hno
          have hnone : alookup tgt b = none := by
            cases hx : alookup tgt b
            · rfl
            · exact absurd (by rw [hx]; rfl) hno
          rcases List.mem_map.mp ((alookup_isSome_iff_mem _ _).mp hbf) with ⟨p, hp, hpb⟩
          apply hrem
          refine List.mem_map.mpr ⟨p, List.mem_filter.mpr ⟨hp, ?_⟩, hpb⟩
          rw [hpb, hnone]
          rfl
        · exact (alookup_isSome_iff_mem tgt b).mpr h1
      · intro hh
        rcases List.mem_map.mp ((alookup_isSome_iff_mem tgt b).mp hh) with ⟨p, hp, hpb⟩
        have hcov := loadBoundsAux_covers loader st.bounds_features tgt st.boundary_data []
          hA (fun b2 feats h2 => (hinv b2).mpr (by rw [h2]; rfl)) p hp
        rw [hpb] at hcov
        exact hcov
  · rw [if_neg hA] at hok
    simp at hok

theorem exists_first_split {α : Type} (p : α → Prop) [DecidablePred p] (l : List α)
    (h : ∃ x ∈ l, p x) : ∃ l1 x l2, l = l1 ++ x :: l2 ∧ p x ∧ ∀ y ∈ l1, ¬p y := by
  induction l with
  | nil => simp at h
  | cons a t ih =>
    by_cases ha : p a
    · exact ⟨[], a, t, by simp, ha, by simp⟩
    · have ht : ∃ x ∈ t, p x := by
        rcases h with ⟨x, hx, hpx⟩
        rcases List.mem_cons.mp hx with h1 | h1
        · exact absurd (h1 ▸ hpx) ha
        · exact ⟨x, h1, hpx⟩
      rcases ih ht with ⟨l1, x, l2, heq, hpx, hl1⟩
      refine ⟨a :: l1, x, l2, by rw [heq]; rfl, hpx, ?_⟩
      intro y hy
      rcases List.mem_cons.mp hy with h1 | h1
      · exact h1 ▸ ha
      · exact hl1 y h1

theorem load_after_reconcile_ok (loader : String → Except Unit DF) (cwLoader : Except Unit DF)
    (st1 : PkgState) (bs fs : List String) (cwF : Bool)
    (hok : (loadReconcile loader st1 bs fs cwF).ok = true)
    (hcw : st1.crosswalk.isSome = true) :
    load loader cwLoader (loadReconcile loader st1 bs fs cwF).state bs fs
      = { state := (loadReconcile loader st1 bs fs cwF).state, fetched := [], cwFetched := false,
          ok := true } := by
  rw [loadReconcile_eq] at hok ⊢
  simp only at hok
  obtain ⟨hbf, hcw2⟩ := loadBoundsFeatures_ok_fields loader st1 (infer_bounds bs fs) hok
  have hcwsome : ∃ cw, (loadBoundsFeatures loader st1 (infer_bounds bs fs)).1.crosswalk
      = some cw := by
    rw [hcw2]
    exact Option.isSome_iff_exists.mp hcw
  rcases hcwsome with ⟨cw, hcw3⟩
  simp only [load, hcw3]
  rw [loadReconcile_eq,
    loadBoundsFeatures_noop loader _ (infer_bounds bs fs) hbf (nodup_keys_infer_bounds bs fs)]

/-! ### Helper lemmas: the enrich paths -/

theorem castFloat_ne_vBool (v : Value) (b : Bool) : castFloat v ≠ Value.vBool b := by
  cases v <;> simp [castFloat]

theorem astypeIntersects_no_bool (df : DF) :
    ∀ p ∈ (astypeIntersects df).rows, ∀ q ∈ p.2, containsIntersects q.1 = true →
      ∀ b, q.2 ≠ Value.vBool b := by
  intro p hp q hq hci b
  simp only [astypeIntersects, List.mem_map] at hp
  rcases hp with ⟨p0, hp0, hpe⟩
  rw [← hpe] at hq
  simp only [List.mem_map] at hq
  rcases hq with ⟨q0, hq0, hqe⟩
  by_cases hc : containsIntersects q0.1 = true
  · rw [← hqe, if_pos hc]
    exact castFloat_ne_vBool q0.2 b
  · rw [← hqe, if_neg hc] at hci ⊢
    exact absurd hci hc

theorem enrichPoints_ok_inv (cw : DF) (bf : List (String × List String))
    (bd : List (String × DF)) (mkQK : Row → String) (points : DF) (m : ResolveDupsEnum)
    (out : DF) (h : enrichPoints cw bf bd mkQK points m = Except.ok out) :
    out = astypeIntersects
        (((bf.foldl (boundaryMerge bd)
          (if (crosswalkJoin cw mkQK points).rows.length ≠ points.rows.length
            then resolveDups (crosswalkJoin cw mkQK points) m
            else crosswalkJoin cw mkQK points).resetIndex).setIndex
          (namedIdx points).idxName).dropColsList cw.cols) ∧
      ((bf.foldl (boundaryMerge bd)
          (if (crosswalkJoin cw mkQK points).rows.length ≠ points.rows.length
            then resolveDups (crosswalkJoin cw mkQK points) m
            else crosswalkJoin cw mkQK points).resetIndex).setIndex
          (namedIdx points).idxName).rows.length = points.rows.length := by
  simp only [enrichPoints] at h
  split at h
  · rename_i hlen
    rw [if_pos hlen]
    split at h
    · rename_i hl2
      exact ⟨(Except.ok.inj h).symm, hl2⟩
    · exact absurd h (by simp)
  · rename_i hlen
    rw [if_neg hlen]
    split at h
    · rename_i hl2
      exact ⟨(Except.ok.inj h).symm, hl2⟩
    · exact absurd h (by simp)

theorem enrichBoundary_ok_inv (loader : String → Except Unit DF) (st : PkgState) (base : DF)
    (bname bcol : String) (out : DF)
    (h : (enrichBoundary loader st base bname bcol).2.2 = Except.ok out) :
    ∃ df0 : DF, out = astypeIntersects df0 := by
  simp only [enrichBoundary] at h
  repeat' split at h
  all_goals simp at h
  all_goals exact ⟨_, h.symm⟩

theorem enrichBoundary_caller (loader : String → Except Unit DF) (st : PkgState) (base : DF)
    (bname bcol : String) (hmem : bcol ∈ base.cols) :
    (enrichBoundary loader st base bname bcol).2.1 = castStrColDF base bcol := by
  simp only [enrichBoundary]
  rw [if_pos hmem]
  repeat' split
  all_goals rfl

theorem hasColR_cons (p : String × Value) (t : Row) (c : String) :
    hasColR (p :: t) c = if p.1 = c then true else hasColR t c := by
  by_cases hp : p.1 = c <;> simp [hasColR, List.find?, hp]

theorem eraseCol_of_hasColR_false (r : Row) (c : String) (h : hasColR r c = false) :
    eraseCol r c = r := by
  induction r with
  | nil => rfl
  | cons p t ih =>
    rw [hasColR_cons] at h
    rw [eraseCol_cons]
    by_cases hp : p.1 = c
    · rw [if_pos hp] at h
      simp at h
    · rw [if_neg hp] at h
      rw [if_neg hp, ih h]

theorem hasColR_append (r s : Row) (c : String) :
    hasColR (r ++ s) c = (hasColR r c || hasColR s c) := by
  induction r with
  | nil => simp [hasColR]
  | cons p t ih =>
    rw [List.cons_append, hasColR_cons, hasColR_cons]
    by_cases hp : p.1 = c
    · rw [if_pos hp, if_pos hp]
      simp
    · rw [if_neg hp, if_neg hp, ih]

theorem getV_row_replace_self (r : Row) (c : String) (v : Value) (h : hasColR r c = true) :
    getV (r.map (fun q => if q.1 = c then (c, v) else q)) c = v := by
  induction r with
  | nil => simp [hasColR] at h
  | cons p t ih =>
    rw [hasColR_cons] at h
    by_cases hp : p.1 = c
    · have hmap : (p :: t).map (fun q => if q.1 = c then (c, v) else q)
          = (c, v) :: t.map (fun q => if q.1 = c then (c, v) else q) := by simp [hp]
      rw [hmap, getV_cons_self]
    · have hmap : (p :: t).map (fun q => if q.1 = c then (c, v) else q)
          = p :: t.map (fun q => if q.1 = c then (c, v) else q) := by simp [hp]
      rw [hmap]
      rw [if_neg hp] at h
      have hstep : getV (p :: t.map (fun q => if q.1 = c then (c, v) else q)) c
          = getV (t.map (fun q => if q.1 = c then (c, v) else q)) c := by
        obtain ⟨p1, p2⟩ := p
        exact getV_cons_ne c p1 p2 _ hp
      rw [hstep, ih h]

theorem hasColR_row_replace_ne (r : Row) (c c2 : String) (v : Value) (h : c2 ≠ c) :
    hasColR (r.map (fun q => if q.1 = c then (c, v) else q)) c2 = hasColR r c2 := by
  induction r with
  | nil => rfl
  | cons p t ih =>
    by_cases hp : p.1 = c
    · have hmap : (p :: t).map (fun q => if q.1 = c then (c, v) else q)
          = (c, v) :: t.map (fun q => if q.1 = c then (c, v) else q) := by simp [hp]
      rw [hmap, hasColR_cons, hasColR_cons]
      have hne : ¬(c = c2) := fun hh => h hh.symm
      rw [if_neg hne, if_neg (hp ▸ hne : ¬(p.1 = c2)), ih]
    · have hmap : (p :: t).map (fun q => if q.1 = c then (c, v) else q)
          = p :: t.map (fun q => if q.1 = c then (c, v) else q) := by simp [hp]
      rw [hmap, hasColR_cons, hasColR_cons, ih]

theorem namedIdx_rows (pts : DF) : (namedIdx pts).rows = pts.rows := by
  unfold namedIdx
  split <;> rfl

theorem namedIdx_cols (pts : DF) : (namedIdx pts).cols = pts.cols := by
  unfold namedIdx
  split <;> rfl

theorem namedIdx_idxName_ne (pts : DF) : (namedIdx pts).idxName ≠ "" := by
  unfold namedIdx
  split
  · intro h
    simp at h
  · rename_i h
    exact h

theorem crosswalkJoin_idxName (cw : DF) (mkQK : Row → String) (pts : DF) :
    (crosswalkJoin cw mkQK pts).idxName = (namedIdx pts).idxName := rfl

theorem setCol_rows (df : DF) (c : String) (f : Value × Row → Value) :
    (df.setCol c f).rows = df.rows.map (fun p =>
      (p.1, if hasColR p.2 c
            then p.2.map (fun q => if q.1 = c then (c, f p) else q)
            else p.2 ++ [(c, f p)])) := rfl

theorem getV_setCol_row (p : Value × Row) (c : String) (f : Value × Row → Value) :
    getV (if hasColR p.2 c
          then p.2.map (fun q => if q.1 = c then (c, f p) else q)
          else p.2 ++ [(c, f p)]) c = f p := by
  by_cases h : hasColR p.2 c
  · rw [if_pos h]
    exact getV_row_replace_self p.2 c (f p) h
  · rw [if_neg h, getV_append_right p.2 [(c, f p)] c (by simpa using h), getV_cons_self]

theorem hasColR_setCol_row_ne (p : Value × Row) (c c2 : String) (f : Value × Row → Value)
    (h : c2 ≠ c) :
    hasColR (if hasColR p.2 c
             then p.2.map (fun q => if q.1 = c then (c, f p) else q)
             else p.2 ++ [(c, f p)]) c2 = hasColR p.2 c2 := by
  by_cases hh : hasColR p.2 c
  · rw [if_pos hh]
    exact hasColR_row_replace_ne p.2 c c2 (f p) h
  · rw [if_neg hh, hasColR_append]
    have hsingle : hasColR [(c, f p)] c2 = false := by
      rw [hasColR_cons, if_neg (fun hc : (c, f p).1 = c2 => h hc.symm)]
      rfl
    rw [hsingle]
    simp

theorem resetIndex_cols (df : DF) (h : df.idxName ≠ "") :
    (DF.resetIndex df).cols = df.idxName :: df.cols := by
  simp [DF.resetIndex, h]

theorem resetIndex_rows (df : DF) (h : df.idxName ≠ "") :
    (DF.resetIndex df).rows
      = df.rows.enum.map (fun q => (Value.vNum q.1, (df.idxName, q.2.1) :: q.2.2)) := by
  simp [DF.resetIndex, h]

theorem exists_enum_of_mem {α : Type} (l : List α) (p : α) (h : p ∈ l) :
    ∃ i, (i, p) ∈ l.enum := by
  have h2 : p ∈ l.enum.map Prod.snd := by rw [List.enum_map_snd]; exact h
  rcases List.mem_map.mp h2 with ⟨q, hq, hqe⟩
  refine ⟨q.1, ?_⟩
  have hq2 : (q.1, p) = q := by
    rw [← hqe]
  rw [hq2]
  exact hq

theorem snd_mem_of_mem_enum {α : Type} (l : List α) (q : Nat × α) (h : q ∈ l.enum) :
    q.2 ∈ l := by
  have : q.2 ∈ l.enum.map Prod.snd := List.mem_map_of_mem Prod.snd h
  rwa [List.enum_map_snd] at this

/-- Every row of a `resolveDups` result is one of the input rows with its label
recovered and the (reset-index) label column stripped again. -/
theorem mem_resolveDups (df : DF) (m : ResolveDupsEnum) (p : Value × Row)
    (hne : df.idxName ≠ "") (hp : p ∈ (resolveDups df m).rows) :
    ∃ w ∈ df.rows, p.1 = w.1 ∧ p.2 = eraseCol w.2 df.idxName := by
  cases m <;>
  · simp only [resolveDups, DF.setIndex, dropDupsCol, sortValues] at hp
    rcases List.mem_map.mp hp with ⟨x, hx, hxe⟩
    have hx2 := mem_dedupKey hx
    have hx3 : x ∈ (DF.resetIndex df).rows := (sortLe_perm _ _).mem_iff.mp hx2
    rw [resetIndex_rows df hne] at hx3
    rcases List.mem_map.mp hx3 with ⟨q, hq, hqe⟩
    refine ⟨q.2, snd_mem_of_mem_enum df.rows q hq, ?_, ?_⟩
    · rw [← hxe, ← hqe]
      simp only
      rw [getV_cons_self]
    · rw [← hxe, ← hqe]
      simp only
      rw [eraseCol_cons]
      simp

theorem countP_resolveDups (df : DF) (m : ResolveDupsEnum) (v : Value)
    (hne : df.idxName ≠ "") (hv : v ∈ idsOf df) :
    (resolveDups df m).rows.countP (fun p => decide (p.1 = v)) = 1 := by
  have hex : ∀ (sortcols : List String) (asc : Bool),
      ∃ x ∈ sortLe (fun p q => lexLe asc (keyOfRow sortcols p.2) (keyOfRow sortcols q.2))
        (DF.resetIndex df).rows, getV x.2 df.idxName = v := by
    intro sortcols asc
    rcases List.mem_map.mp hv with ⟨w, hw, hwe⟩
    rcases exists_enum_of_mem df.rows w hw with ⟨i, hi⟩
    refine ⟨(Value.vNum i, (df.idxName, w.1) :: w.2), ?_, ?_⟩
    · apply (sortLe_perm _ _).mem_iff.mpr
      rw [resetIndex_rows df hne]
      exact List.mem_map.mpr ⟨(i, w), hi, rfl⟩
    · rw [getV_cons_self]
      exact hwe
  cases m <;>
  · simp only [resolveDups, DF.setIndex, dropDupsCol, sortValues]
    rw [List.countP_map]
    have hcp : ((fun (p : Value × Row) => decide (p.1 = v)) ∘
        (fun p => (getV p.2 df.idxName, eraseCol p.2 df.idxName)))
        = fun (p : Value × Row) => decide (getV p.2 df.idxName = v) := rfl
    rw [hcp, countP_dedupKey]
    rw [if_pos ⟨by simp, hex _ _⟩]

theorem idsOf_dropColT (df : DF) (c : String) : idsOf (df.dropColT c) = idsOf df := by
  simp [idsOf, DF.dropColT, List.map_map]

theorem idsOf_astypeIntersects (df : DF) : idsOf (astypeIntersects df) = idsOf df := by
  simp [idsOf, astypeIntersects, List.map_map]

theorem idsOf_dropColsList (df : DF) (cs : List String) :
    idsOf (df.dropColsList cs) = idsOf df := by
  induction cs generalizing df with
  | nil => rfl
  | cons c t ih =>
    show idsOf ((df.dropColT c).dropColsList t) = idsOf df
    rw [ih, idsOf_dropColT]

theorem idsOf_setCol (df : DF) (c : String) (f : Value × Row → Value) :
    idsOf (df.setCol c f) = idsOf df := by
  simp [idsOf, DF.setCol, List.map_map]

theorem idsOf_namedIdx (pts : DF) : idsOf (namedIdx pts) = idsOf pts := by
  unfold idsOf
  rw [namedIdx_rows]

theorem joinBlock_ne_nil (R : DF) (x : Value × Row) (c : String) :
    (if (R.rows.filter (fun q =>
          decide (q.1 = getV x.2 c) && decide (getV x.2 c ≠ Value.vNull))).isEmpty
     then [(x.1, x.2 ++ nullFill R.cols)]
     else (R.rows.filter (fun q =>
          decide (q.1 = getV x.2 c) && decide (getV x.2 c ≠ Value.vNull))).map
        (fun q => (x.1, x.2 ++ q.2))) ≠ [] := by
  by_cases he : (R.rows.filter (fun q =>
      decide (q.1 = getV x.2 c) && decide (getV x.2 c ≠ Value.vNull))).isEmpty = true
  · rw [if_pos he]
    simp
  · rw [if_neg he]
    intro hcontra
    rw [List.map_eq_nil_iff] at hcontra
    rw [hcontra] at he
    simp at he

theorem joinBlock_fst (R : DF) (x : Value × Row) (c : String) (y : Value × Row)
    (hy : y ∈ (if (R.rows.filter (fun q =>
          decide (q.1 = getV x.2 c) && decide (getV x.2 c ≠ Value.vNull))).isEmpty
      then [(x.1, x.2 ++ nullFill R.cols)]
      else (R.rows.filter (fun q =>
          decide (q.1 = getV x.2 c) && decide (getV x.2 c ≠ Value.vNull))).map
        (fun q => (x.1, x.2 ++ q.2)))) : y.1 = x.1 := by
  by_cases he : (R.rows.filter (fun q =>
      decide (q.1 = getV x.2 c) && decide (getV x.2 c ≠ Value.vNull))).isEmpty = true
  · rw [if_pos he] at hy
    rcases List.mem_singleton.mp hy with h
    rw [h]
  · rw [if_neg he] at hy
    rcases List.mem_map.mp hy with ⟨q, _, hqe⟩
    rw [← hqe]

theorem mem_idsOf_joinLeft (L R : DF) (c : String) (v : Value) :
    v ∈ idsOf (joinLeftOnIndex L R c) ↔ v ∈ idsOf L := by
  unfold idsOf joinLeftOnIndex
  simp only
  exact mem_map_flatMap_iff _ L.rows
    (fun x _ => joinBlock_ne_nil R x c)
    (fun p => p.1) (fun p => p.1)
    (fun x _ y hy => joinBlock_fst R x c y hy) v

theorem mem_idsOf_crosswalkJoin (cw : DF) (mkQK : Row → String) (pts : DF) (v : Value) :
    v ∈ idsOf (crosswalkJoin cw mkQK pts) ↔ v ∈ idsOf pts := by
  unfold crosswalkJoin
  rw [idsOf_dropColT, mem_idsOf_joinLeft, idsOf_setCol, idsOf_namedIdx]

/-- Under the zero-match hypotheses, every crosswalk-join row carrying identity
`v` has all crosswalk columns null. -/
theorem crosswalkJoin_row_null (cw : DF) (mkQK : Row → String) (pts : DF) (v : Value)
    (hm : ∀ p ∈ pts.rows, p.1 = v → ∀ q ∈ cw.rows, q.1 ≠ Value.vStr (mkQK p.2))
    (hd : ∀ c ∈ cw.cols, ∀ p ∈ pts.rows, hasColR p.2 c = false)
    (hqk : ∀ c ∈ cw.cols, c ≠ "qk") :
    ∀ x ∈ (crosswalkJoin cw mkQK pts).rows, x.1 = v →
      ∀ c ∈ cw.cols, getV x.2 c = Value.vNull := by
  intro x hx hxv c hc
  unfold crosswalkJoin DF.dropColT at hx
  simp only [List.mem_map] at hx
  rcases hx with ⟨y, hy, hye⟩
  unfold joinLeftOnIndex at hy
  simp only [List.mem_flatMap] at hy
  rcases hy with ⟨z, hz, hyz⟩
  rw [setCol_rows, namedIdx_rows] at hz
  rcases List.mem_map.mp hz with ⟨p, hp, hpe⟩
  have hz1 : z.1 = p.1 := by rw [← hpe]
  have hz2 : getV z.2 "qk" = Value.vStr (mkQK p.2) := by
    rw [← hpe]
    exact getV_setCol_row p "qk" (fun p => Value.vStr (mkQK p.2))
  have hpv : p.1 = v := by
    rw [← hz1, ← joinBlock_fst cw z "qk" y hyz]
    rw [← hye] at hxv
    exact hxv
  have hms : cw.rows.filter (fun q =>
      decide (q.1 = getV z.2 "qk") && decide (getV z.2 "qk" ≠ Value.vNull)) = [] := by
    rw [List.filter_eq_nil_iff]
    intro q hq
    rw [hz2]
    simp only [Bool.and_eq_true, decide_eq_true_eq, not_and]
    intro hq1
    exact absurd hq1 (hm p hp hpv q hq)
  simp only [hms, List.isEmpty_nil, if_true] at hyz
  rcases List.mem_singleton.mp hyz with hyy
  have hcne : c ≠ "qk" := hqk c hc
  have hget : getV y.2 c = Value.vNull := by
    rw [hyy]
    simp only
    have hzc : hasColR z.2 c = false := by
      rw [← hpe]
      simp only
      rw [hasColR_setCol_row_ne p "qk" c (fun p => Value.vStr (mkQK p.2)) hcne]
      exact hd c hc p hp
    rw [getV_append_right z.2 (nullFill cw.cols) c hzc]
    exact getV_nullFill cw.cols c hc
  rw [← hye]
  simp only
  rw [getV_eraseCol_ne y.2 c "qk" hcne]
  exact hget

/-- In a sorted list, the first element satisfying `P` is `le`-below every
element satisfying `P`. -/
theorem sorted_first_sat {α : Type} (le : α → α → Bool)
    (htrans : ∀ x y z, le x y = true → le y z = true → le x z = true)
    (htot : ∀ x y, le x y = true ∨ le y x = true) (l : List α) (P : α → Bool)
    (hex : ∃ x ∈ l, P x = true) :
    ∃ l1 x l2, sortLe le l = l1 ++ x :: l2 ∧ P x = true ∧ (∀ y ∈ l1, ¬P y = true) ∧
      ∀ y ∈ sortLe le l, P y = true → le x y = true := by
  have hperm := sortLe_perm le l
  have hex2 : ∃ x ∈ sortLe le l, P x = true := by
    rcases hex with ⟨x, hx, hp⟩
    exact ⟨x, hperm.mem_iff.mpr hx, hp⟩
  rcases exists_first_split (fun x => P x = true) (sortLe le l) hex2 with ⟨l1, x, l2, heq, hpx, hl1⟩
  have hsorted := sorted_sortLe le htrans htot l
  rw [heq] at hsorted
  rcases List.pairwise_append.mp hsorted with ⟨hp1, hp2, hp12⟩
  rcases List.pairwise_cons.mp hp2 with ⟨hx2, _⟩
  refine ⟨l1, x, l2, heq, hpx, hl1, ?_⟩
  intro y hy hpy
  rw [heq] at hy
  rcases List.mem_append.mp hy with hy1 | hy2
  · exact absurd hpy (hl1 y hy1)
  · rcases List.mem_cons.mp hy2 with hyx | hyl2
    · rw [hyx]
      rcases htot x x with h | h
      · exact h
      · exact h
    · exact hx2 y hyl2

/-- Core of the duplicate-resolution ranking argument: when the rows carrying
identity `v` are (within the reset frame) exactly copies of `rw2` and `rl`, and
the sort strictly prefers `rw2`, the sort-then-keep-first pipeline keeps
exactly the `rw2` row for `v`. -/
theorem resolveDups_pick_core (df : DF) (v : Value) (rw2 rl : Row) (asc : Bool)
    (hne : df.idxName ≠ "")
    (hidx3 : df.idxName ≠ "county_area_sqkm")
    (hrw : (v, rw2) ∈ df.rows) (hrl : (v, rl) ∈ df.rows)
    (honly : ∀ p ∈ df.rows, p.1 = v → p.2 = rw2 ∨ p.2 = rl)
    (hstrict1 : valueLe asc (getV rw2 "county_area_sqkm") (getV rl "county_area_sqkm") = true)
    (hstrict2 : valueLe asc (getV rl "county_area_sqkm") (getV rw2 "county_area_sqkm") = false)
    (hcw : hasColR rw2 df.idxName = false) :
    ((dedupKey df.idxName []
        (sortLe (fun p q => lexLe asc (keyOfRow ["county" ++ "_area_sqkm"] p.2)
          (keyOfRow ["county" ++ "_area_sqkm"] q.2)) (DF.resetIndex df).rows)).map
      (fun p => (getV p.2 df.idxName, eraseCol p.2 df.idxName))).filter
        (fun p => decide (p.1 = v)) = [(v, rw2)] := by
  have happ : "county" ++ "_area_sqkm" = "county_area_sqkm" := rfl
  rw [happ]
  set ac := "county_area_sqkm" with hac
  set idxn := df.idxName with hidxn
  set le := fun (p q : Value × Row) =>
    lexLe asc (keyOfRow [ac] p.2) (keyOfRow [ac] q.2) with hle
  have hkeylen : ∀ p : Value × Row, (keyOfRow [ac] p.2).length = 1 := by
    intro p
    simp [keyOfRow]
  have htrans : ∀ x y z, le x y = true → le y z = true → le x z = true := by
    intro x y z hxy hyz
    exact lexLe_trans asc _ _ _ (by rw [hkeylen, hkeylen]) (by rw [hkeylen, hkeylen]) hxy hyz
  have htot : ∀ x y, le x y = true ∨ le y x = true := by
    intro x y
    exact lexLe_total asc _ _
  -- the rw2 copy inside the reset frame
  rcases exists_enum_of_mem df.rows (v, rw2) hrw with ⟨iw, hiw⟩
  have hwmem : (Value.vNum iw, (idxn, v) :: rw2) ∈ (DF.resetIndex df).rows := by
    rw [resetIndex_rows df hne]
    exact List.mem_map.mpr ⟨(iw, (v, rw2)), hiw, rfl⟩
  have hex : ∃ x ∈ (DF.resetIndex df).rows,
      (fun p : Value × Row => decide (getV p.2 idxn = v)) x = true := by
    refine ⟨(Value.vNum iw, (idxn, v) :: rw2), hwmem, ?_⟩
    simp [getV_cons_self]
  rcases sorted_first_sat le htrans htot (DF.resetIndex df).rows
      (fun p => decide (getV p.2 idxn = v)) hex with ⟨l1, x, l2, heq, hpx, hl1, hmin⟩
  have hxmem : x ∈ sortLe le (DF.resetIndex df).rows := by
    rw [heq]
    exact List.mem_append.mpr (Or.inr (List.mem_cons_self x l2))
  have hxreset : x ∈ (DF.resetIndex df).rows := (sortLe_perm le _).mem_iff.mp hxmem
  rw [resetIndex_rows df hne] at hxreset
  rcases List.mem_map.mp hxreset with ⟨q, hq, hqe⟩
  have hw : q.2 ∈ df.rows := snd_mem_of_mem_enum df.rows q hq
  have hkey : getV x.2 idxn = v := of_decide_eq_true hpx
  have hx1 : q.2.1 = v := by
    rw [← hqe] at hkey
    simp only at hkey
    rw [getV_cons_self] at hkey
    exact hkey
  have hrow : q.2.2 = rw2 ∨ q.2.2 = rl := honly q.2 hw hx1
  have hx2eq : x.2 = (idxn, v) :: rw2 := by
    rcases hrow with hr | hr
    · rw [← hqe]
      simp only
      rw [hx1, hr]
    · -- x carries the dispreferred row: contradiction with minimality
      exfalso
      have hymem : (Value.vNum iw, (idxn, v) :: rw2) ∈ sortLe le (DF.resetIndex df).rows :=
        (sortLe_perm le _).mem_iff.mpr hwmem
      have hpy : (fun p : Value × Row => decide (getV p.2 idxn = v))
          (Value.vNum iw, (idxn, v) :: rw2) = true := by
        simp [getV_cons_self]
      have hlexy := hmin (Value.vNum iw, (idxn, v) :: rw2) hymem hpy
      rw [hle] at hlexy
      simp only [keyOfRow, List.map_cons, List.map_nil] at hlexy
      have hx2 : x.2 = (idxn, v) :: rl := by
        rw [← hqe]
        simp only
        rw [hx1, hr]
      rw [hx2] at hlexy
      have hgl : getV ((idxn, v) :: rl) ac = getV rl ac :=
        getV_cons_ne ac idxn v rl hidx3
      have hgw : getV ((idxn, v) :: rw2) ac = getV rw2 ac :=
        getV_cons_ne ac idxn v rw2 hidx3
      rw [hgl, hgw, lexLe_single, hstrict2] at hlexy
      exact absurd hlexy (by simp)
  have hfilter : (dedupKey idxn [] (sortLe le (DF.resetIndex df).rows)).filter
      (fun p => decide (getV p.2 idxn = v)) = [x] := by
    rw [heq]
    apply dedupKey_filter_first idxn v [] l1 l2 x hkey (by simp)
    intro y hy
    have := hl1 y hy
    intro hcontra
    exact this (by simp [hcontra])
  rw [List.filter_map]
  have hcomp : ((fun p : Value × Row => decide (p.1 = v)) ∘
      (fun p : Value × Row => (getV p.2 idxn, eraseCol p.2 idxn)))
      = fun p : Value × Row => decide (getV p.2 idxn = v) := rfl
  rw [hcomp, hfilter, List.map_singleton]
  rw [hx2eq]
  simp only [getV_cons_self, eraseCol_cons, if_pos rfl]
  rw [eraseCol_of_hasColR_false rw2 idxn hcw]
  simp

/-! ### Helper lemmas: row counts and identity tracking for C1 -/

theorem rows_length_dropColT (df : DF) (c : String) :
    (df.dropColT c).rows.length = df.rows.length := by
  simp [DF.dropColT]

theorem rows_length_dropColsList (df : DF) (cs : List String) :
    (df.dropColsList cs).rows.length = df.rows.length := by
  induction cs generalizing df with
  | nil => rfl
  | cons c t ih =>
    show ((df.dropColT c).dropColsList t).rows.length = df.rows.length
    rw [ih, rows_length_dropColT]

theorem rows_length_astypeIntersects (df : DF) :
    (astypeIntersects df).rows.length = df.rows.length := by
  simp [astypeIntersects]

theorem rows_length_setIndex (df : DF) (c : String) :
    (df.setIndex c).rows.length = df.rows.length := by
  simp [DF.setIndex]

theorem rows_length_setCol (df : DF) (c : String) (f : Value × Row → Value) :
    (df.setCol c f).rows.length = df.rows.length := by
  simp [DF.setCol]

theorem rows_length_resetIndex (df : DF) :
    (DF.resetIndex df).rows.length = df.rows.length := by
  simp [DF.resetIndex]

theorem idsOf_setIndex (df : DF) (c : String) : idsOf (df.setIndex c) = colVals df c := by
  simp [idsOf, DF.setIndex, colVals, List.map_map]

theorem enum_map_comp_snd {α β : Type} (l : List α) (f : α → β) :
    l.enum.map (fun q => f q.2) = l.map f := by
  have h1 : l.enum.map (fun q => f q.2) = (l.enum.map Prod.snd).map f := by
    rw [List.map_map]
    rfl
  rw [h1, List.enum_map_snd]

theorem colVals_resetIndex (df : DF) (h : df.idxName ≠ "") :
    colVals (DF.resetIndex df) df.idxName = idsOf df := by
  rw [colVals, resetIndex_rows df h, List.map_map]
  have h2 : ((fun p : Value × Row => getV p.2 df.idxName) ∘
      (fun q : Nat × (Value × Row) => (Value.vNum q.1, (df.idxName, q.2.1) :: q.2.2)))
      = fun q : Nat × (Value × Row) => q.2.1 := by
    funext q
    simp only [Function.comp]
    rw [getV_cons_self]
  rw [h2]
  have h3 : (fun q : Nat × (Value × Row) => q.2.1)
      = fun q : Nat × (Value × Row) => (fun p : Value × Row => p.1) q.2 := rfl
  rw [h3, enum_map_comp_snd]
  rfl

theorem resolveDups_idxName (df : DF) (m : ResolveDupsEnum) :
    (resolveDups df m).idxName = df.idxName := by
  cases m <;> rfl

theorem mem_idsOf_resolveDups (df : DF) (m : ResolveDupsEnum) (v : Value)
    (hne : df.idxName ≠ "") : v ∈ idsOf (resolveDups df m) ↔ v ∈ idsOf df := by
  constructor
  · intro hv
    rcases List.mem_map.mp hv with ⟨p, hp, hpe⟩
    rcases mem_resolveDups df m p hne hp with ⟨w, hw, hw1, _⟩
    rw [← hpe, hw1]
    exact List.mem_map.mpr ⟨w, hw, rfl⟩
  · intro hv
    have hc := countP_resolveDups df m v hne hv
    have hpos : 0 < (resolveDups df m).rows.countP (fun p => decide (p.1 = v)) := by
      rw [hc]
      omega
    rcases List.countP_pos_iff.mp hpos with ⟨p, hp, hpv⟩
    exact List.mem_map.mpr ⟨p, hp, of_decide_eq_true hpv⟩

theorem rows_length_joinLeft_ge (L R : DF) (c : String) :
    L.rows.length ≤ (joinLeftOnIndex L R c).rows.length :=
  length_flatMap_ge _ L.rows (fun x _ => joinBlock_ne_nil R x c)

theorem idsOf_joinLeft_eq_of_len (L R : DF) (c : String)
    (hlen : (joinLeftOnIndex L R c).rows.length = L.rows.length) :
    idsOf (joinLeftOnIndex L R c) = idsOf L := by
  unfold idsOf joinLeftOnIndex
  exact flatMap_singleton_map _ L.rows (fun x _ => joinBlock_ne_nil R x c) hlen
    (fun p => p.1) (fun p => p.1) (fun x _ y hy => joinBlock_fst R x c y hy)

theorem rows_length_crosswalkJoin_ge (cw : DF) (mkQK : Row → String) (pts : DF) :
    pts.rows.length ≤ (crosswalkJoin cw mkQK pts).rows.length := by
  unfold crosswalkJoin
  rw [rows_length_dropColT]
  have h1 := rows_length_joinLeft_ge ((namedIdx pts).setCol "qk"
    (fun p => Value.vStr (mkQK p.2))) cw "qk"
  rw [rows_length_setCol] at h1
  have h2 : (namedIdx pts).rows.length = pts.rows.length := by rw [namedIdx_rows]
  rw [h2] at h1
  exact h1

theorem idsOf_crosswalkJoin_eq_of_len (cw : DF) (mkQK : Row → String) (pts : DF)
    (hlen : (crosswalkJoin cw mkQK pts).rows.length = pts.rows.length) :
    idsOf (crosswalkJoin cw mkQK pts) = idsOf pts := by
  unfold crosswalkJoin at hlen ⊢
  rw [rows_length_dropColT] at hlen
  rw [idsOf_dropColT]
  have hlen2 : (joinLeftOnIndex ((namedIdx pts).setCol "qk"
      (fun p => Value.vStr (mkQK p.2))) cw "qk").rows.length
      = ((namedIdx pts).setCol "qk" (fun p => Value.vStr (mkQK p.2))).rows.length := by
    rw [rows_length_setCol, namedIdx_rows]
    exact hlen
  rw [idsOf_joinLeft_eq_of_len _ _ _ hlen2, idsOf_setCol, idsOf_namedIdx]

theorem mergeBlock_ne_nil (R : DF) (p : Value × Row) (lc rc : String) :
    (if (R.rows.filter (fun q =>
          decide (getV q.2 rc = getV p.2 lc) && decide (getV p.2 lc ≠ Value.vNull))).isEmpty
     then [p.2 ++ nullFill R.cols]
     else (R.rows.filter (fun q =>
          decide (getV q.2 rc = getV p.2 lc) && decide (getV p.2 lc ≠ Value.vNull))).map
        (fun q => p.2 ++ q.2)) ≠ [] := by
  by_cases he : (R.rows.filter (fun q =>
      decide (getV q.2 rc = getV p.2 lc) && decide (getV p.2 lc ≠ Value.vNull))).isEmpty = true
  · rw [if_pos he]
    simp
  · rw [if_neg he]
    intro hcontra
    rw [List.map_eq_nil_iff] at hcontra
    rw [hcontra] at he
    simp at he

theorem mergeBlock_append (R : DF) (p : Value × Row) (lc rc : String) (y : Row)
    (hy : y ∈ (if (R.rows.filter (fun q =>
          decide (getV q.2 rc = getV p.2 lc) && decide (getV p.2 lc ≠ Value.vNull))).isEmpty
      then [p.2 ++ nullFill R.cols]
      else (R.rows.filter (fun q =>
          decide (getV q.2 rc = getV p.2 lc) && decide (getV p.2 lc ≠ Value.vNull))).map
        (fun q => p.2 ++ q.2))) : ∃ t : Row, y = p.2 ++ t := by
  by_cases he : (R.rows.filter (fun q =>
      decide (getV q.2 rc = getV p.2 lc) && decide (getV p.2 lc ≠ Value.vNull))).isEmpty = true
  · rw [if_pos he] at hy
    exact ⟨nullFill R.cols, List.mem_singleton.mp hy⟩
  · rw [if_neg he] at hy
    rcases List.mem_map.mp hy with ⟨q, _, hqe⟩
    exact ⟨q.2, hqe.symm⟩

theorem rows_length_mergeLeft_ge (L R : DF) (lc rc : String) :
    L.rows.length ≤ (mergeLeft L R lc rc).rows.length := by
  unfold mergeLeft
  simp only [List.length_map, List.enum_length]
  exact length_flatMap_ge _ L.rows (fun x _ => mergeBlock_ne_nil R x lc rc)

theorem colVals_mergeLeft_base (L R : DF) (lc rc cKeep : String) :
    colVals (mergeLeft L R lc rc) cKeep
      = (L.rows.flatMap (fun p =>
          if (R.rows.filter (fun q =>
              decide (getV q.2 rc = getV p.2 lc) && decide (getV p.2 lc ≠ Value.vNull))).isEmpty
          then [p.2 ++ nullFill R.cols]
          else (R.rows.filter (fun q =>
              decide (getV q.2 rc = getV p.2 lc) && decide (getV p.2 lc ≠ Value.vNull))).map
            (fun q => p.2 ++ q.2))).map (fun r => getV r cKeep) := by
  unfold colVals mergeLeft
  rw [List.map_map]
  have hfun : ((fun p : Value × Row => getV p.2 cKeep) ∘ (fun q : Nat × Row => (Value.vNum q.1, q.2)))
      = fun q : Nat × Row => getV q.2 cKeep := rfl
  rw [hfun]
  exact enum_map_comp_snd _ (fun r => getV r cKeep)

theorem mem_colVals_mergeLeft (L R : DF) (lc rc cKeep : String)
    (hInv : ∀ p ∈ L.rows, hasColR p.2 cKeep = true) (v : Value) :
    v ∈ colVals (mergeLeft L R lc rc) cKeep ↔ v ∈ colVals L cKeep := by
  rw [colVals_mergeLeft_base]
  exact mem_map_flatMap_iff _ L.rows (fun x _ => mergeBlock_ne_nil R x lc rc)
    (fun r => getV r cKeep) (fun p => getV p.2 cKeep)
    (fun x hx y hy => by
      rcases mergeBlock_append R x lc rc y hy with ⟨t, ht⟩
      rw [ht]
      exact getV_append_left x.2 t cKeep (hInv x hx)) v

theorem colVals_mergeLeft_of_len (L R : DF) (lc rc cKeep : String)
    (hInv : ∀ p ∈ L.rows, hasColR p.2 cKeep = true)
    (hlen : (mergeLeft L R lc rc).rows.length = L.rows.length) :
    colVals (mergeLeft L R lc rc) cKeep = colVals L cKeep := by
  rw [colVals_mergeLeft_base]
  have hlen2 : (L.rows.flatMap (fun p =>
      if (R.rows.filter (fun q =>
          decide (getV q.2 rc = getV p.2 lc) && decide (getV p.2 lc ≠ Value.vNull))).isEmpty
      then [p.2 ++ nullFill R.cols]
      else (R.rows.filter (fun q =>
          decide (getV q.2 rc = getV p.2 lc) && decide (getV p.2 lc ≠ Value.vNull))).map
        (fun q => p.2 ++ q.2))).length = L.rows.length := by
    unfold mergeLeft at hlen
    simp only [List.length_map, List.enum_length] at hlen
    exact hlen
  exact flatMap_singleton_map _ L.rows (fun x _ => mergeBlock_ne_nil R x lc rc) hlen2
    (fun r => getV r cKeep) (fun p => getV p.2 cKeep)
    (fun x hx y hy => by
      rcases mergeBlock_append R x lc rc y hy with ⟨t, ht⟩
      rw [ht]
      exact getV_append_left x.2 t cKeep (hInv x hx))

theorem hasColR_mergeLeft (L R : DF) (lc rc cKeep : String)
    (hInv : ∀ p ∈ L.rows, hasColR p.2 cKeep = true) :
    ∀ p ∈ (mergeLeft L R lc rc).rows, hasColR p.2 cKeep = true := by
  intro p hp
  unfold mergeLeft at hp
  simp only [List.mem_map] at hp
  rcases hp with ⟨q, hq, hqe⟩
  have hq2 := snd_mem_of_mem_enum _ q hq
  rcases List.mem_flatMap.mp hq2 with ⟨x, hx, hy⟩
  rcases mergeBlock_append R x lc rc q.2 hy with ⟨t, ht⟩
  rw [← hqe]
  simp only
  rw [ht, hasColR_append, hInv x hx]
  simp

theorem foldl_dropX_length (bnd : String) (feats : List String) (cs : List String) (df : DF) :
    (cs.foldl (fun acc col => if (col ++ "_" ++ bnd) ∈ feats then acc
        else acc.dropColT (col ++ "_" ++ bnd)) df).rows.length = df.rows.length := by
  induction cs generalizing df with
  | nil => rfl
  | cons c t ih =>
    simp only [List.foldl_cons]
    by_cases hc : (c ++ "_" ++ bnd) ∈ feats
    · rw [if_pos hc, ih]
    · rw [if_neg hc, ih, rows_length_dropColT]

theorem colVals_dropColT_ne (df : DF) (c cKeep : String) (h : c ≠ cKeep) :
    colVals (df.dropColT c) cKeep = colVals df cKeep := by
  unfold colVals DF.dropColT
  rw [List.map_map]
  apply List.map_congr_left
  intro p _
  simp only [Function.comp]
  exact getV_eraseCol_ne p.2 cKeep c (fun hh => h hh.symm)

theorem foldl_dropX_colVals (bnd : String) (feats : List String) (cs : List String) (df : DF)
    (cKeep : String) (hsafe : ∀ col ∈ cs, col ++ "_" ++ bnd ≠ cKeep) :
    colVals (cs.foldl (fun acc col => if (col ++ "_" ++ bnd) ∈ feats then acc
        else acc.dropColT (col ++ "_" ++ bnd)) df) cKeep = colVals df cKeep := by
  induction cs generalizing df with
  | nil => rfl
  | cons c t ih =>
    simp only [List.foldl_cons]
    have hc1 : c ++ "_" ++ bnd ≠ cKeep := hsafe c (List.mem_cons_self c t)
    have hsafe2 : ∀ col ∈ t, col ++ "_" ++ bnd ≠ cKeep :=
      fun col hcol => hsafe col (List.mem_cons_of_mem c hcol)
    by_cases hc : (c ++ "_" ++ bnd) ∈ feats
    · rw [if_pos hc, ih df hsafe2]
    · rw [if_neg hc, ih _ hsafe2, colVals_dropColT_ne df _ cKeep hc1]

theorem hasColR_dropColT_ne (df : DF) (c cKeep : String) (h : c ≠ cKeep)
    (hInv : ∀ p ∈ df.rows, hasColR p.2 cKeep = true) :
    ∀ p ∈ (df.dropColT c).rows, hasColR p.2 cKeep = true := by
  intro p hp
  unfold DF.dropColT at hp
  simp only [List.mem_map] at hp
  rcases hp with ⟨q, hq, hqe⟩
  rw [← hqe]
  simp only
  rw [hasColR_eraseCol_ne q.2 cKeep c (fun hh => h hh.symm)]
  exact hInv q hq

theorem foldl_dropX_hasColR (bnd : String) (feats : List String) (cs : List String) (df : DF)
    (cKeep : String) (hsafe : ∀ col ∈ cs, col ++ "_" ++ bnd ≠ cKeep)
    (hInv : ∀ p ∈ df.rows, hasColR p.2 cKeep = true) :
    ∀ p ∈ (cs.foldl (fun acc col => if (col ++ "_" ++ bnd) ∈ feats then acc
        else acc.dropColT (col ++ "_" ++ bnd)) df).rows, hasColR p.2 cKeep = true := by
  induction cs generalizing df with
  | nil => exact hInv
  | cons c t ih =>
    simp only [List.foldl_cons]
    have hc1 : c ++ "_" ++ bnd ≠ cKeep := hsafe c (List.mem_cons_self c t)
    have hsafe2 : ∀ col ∈ t, col ++ "_" ++ bnd ≠ cKeep :=
      fun col hcol => hsafe col (List.mem_cons_of_mem c hcol)
    by_cases hc : (c ++ "_" ++ bnd) ∈ feats
    · rw [if_pos hc]
      exact ih df hsafe2 hInv
    · rw [if_neg hc]
      exact ih _ hsafe2 (hasColR_dropColT_ne df _ cKeep hc1 hInv)

theorem boundaryMerge_facts (bd : List (String × DF)) (acc : DF) (pr : String × List String)
    (cKeep : String)
    (hsafe : ∀ colb ∈ (["id", "name", "geometry"] : List String), colb ++ "_" ++ pr.1 ≠ cKeep)
    (hInv : ∀ p ∈ acc.rows, hasColR p.2 cKeep = true) :
    (acc.rows.length ≤ (boundaryMerge bd acc pr).rows.length) ∧
    (∀ p ∈ (boundaryMerge bd acc pr).rows, hasColR p.2 cKeep = true) ∧
    (∀ v, v ∈ colVals (boundaryMerge bd acc pr) cKeep ↔ v ∈ colVals acc cKeep) ∧
    ((boundaryMerge bd acc pr).rows.length = acc.rows.length →
      colVals (boundaryMerge bd acc pr) cKeep = colVals acc cKeep) := by
  have hbm : boundaryMerge bd acc pr
      = dropXtraCols pr.1 pr.2 (mergeLeft acc ((alookup bd pr.1).getD {}) (pr.1 ++ "_id")
          ("id_" ++ pr.1)) := rfl
  set dfb := (alookup bd pr.1).getD {} with hdfb
  set mg := mergeLeft acc dfb (pr.1 ++ "_id") ("id_" ++ pr.1) with hmg
  have hdxlen : (dropXtraCols pr.1 pr.2 mg).rows.length = mg.rows.length :=
    foldl_dropX_length pr.1 pr.2 ["id", "name", "geometry"] mg
  have hdxcv : colVals (dropXtraCols pr.1 pr.2 mg) cKeep = colVals mg cKeep :=
    foldl_dropX_colVals pr.1 pr.2 ["id", "name", "geometry"] mg cKeep hsafe
  refine ⟨?_, ?_, ?_, ?_⟩
  · rw [hbm, hdxlen]
    exact rows_length_mergeLeft_ge acc dfb _ _
  · rw [hbm]
    exact foldl_dropX_hasColR pr.1 pr.2 ["id", "name", "geometry"] mg cKeep hsafe
      (hasColR_mergeLeft acc dfb _ _ cKeep hInv)
  · intro v
    rw [hbm, hdxcv]
    exact mem_colVals_mergeLeft acc dfb _ _ cKeep hInv v
  · intro hlen
    rw [hbm] at hlen ⊢
    rw [hdxlen] at hlen
    rw [hdxcv]
    exact colVals_mergeLeft_of_len acc dfb _ _ cKeep hInv hlen

theorem foldl_boundaryMerge_facts (bd : List (String × DF)) (bf : List (String × List String))
    (acc : DF) (cKeep : String)
    (hsafe : ∀ pr ∈ bf, ∀ colb ∈ (["id", "name", "geometry"] : List String),
      colb ++ "_" ++ pr.1 ≠ cKeep)
    (hInv : ∀ p ∈ acc.rows, hasColR p.2 cKeep = true) :
    (acc.rows.length ≤ (bf.foldl (boundaryMerge bd) acc).rows.length) ∧
    (∀ v, v ∈ colVals (bf.foldl (boundaryMerge bd) acc) cKeep ↔ v ∈ colVals acc cKeep) ∧
    ((bf.foldl (boundaryMerge bd) acc).rows.length = acc.rows.length →
      colVals (bf.foldl (boundaryMerge bd) acc) cKeep = colVals acc cKeep) := by
  induction bf generalizing acc with
  | nil => exact ⟨Nat.le_refl _, fun v => Iff.rfl, fun _ => rfl⟩
  | cons pr t ih =>
    simp only [List.foldl_cons]
    have hsafe1 : ∀ colb ∈ (["id", "name", "geometry"] : List String),
        colb ++ "_" ++ pr.1 ≠ cKeep := hsafe pr (List.mem_cons_self pr t)
    have hsafe2 : ∀ q ∈ t, ∀ colb ∈ (["id", "name", "geometry"] : List String),
        colb ++ "_" ++ q.1 ≠ cKeep := fun q hq => hsafe q (List.mem_cons_of_mem pr hq)
    obtain ⟨hmono1, hinv1, hmem1, hlen1⟩ := boundaryMerge_facts bd acc pr cKeep hsafe1 hInv
    obtain ⟨hmono2, hmem2, hlen2⟩ := ih (boundaryMerge bd acc pr) hsafe2 hinv1
    refine ⟨Nat.le_trans hmono1 hmono2, ?_, ?_⟩
    · intro v
      rw [hmem2 v, hmem1 v]
    · intro hlen
      have hstep : (boundaryMerge bd acc pr).rows.length = acc.rows.length := by
        omega
      have hfold : (t.foldl (boundaryMerge bd) (boundaryMerge bd acc pr)).rows.length
          = (boundaryMerge bd acc pr).rows.length := by
        omega
      rw [hlen2 hfold, hlen1 hstep]

theorem rows_length_dropXtraCols (bnd : String) (feats : List String) (df : DF) :
    (dropXtraCols bnd feats df).rows.length = df.rows.length :=
  foldl_dropX_length bnd feats ["id", "name", "geometry"] df

theorem foldl_dropX_ids (bnd : String) (feats : List String) (cs : List String) (df : DF) :
    idsOf (cs.foldl (fun acc col => if (col ++ "_" ++ bnd) ∈ feats then acc
        else acc.dropColT (col ++ "_" ++ bnd)) df) = idsOf df := by
  induction cs generalizing df with
  | nil => rfl
  | cons c t ih =>
    simp only [List.foldl_cons]
    by_cases hc : (c ++ "_" ++ bnd) ∈ feats
    · rw [if_pos hc, ih]
    · rw [if_neg hc, ih, idsOf_dropColT]

theorem idsOf_dropXtraCols (bnd : String) (feats : List String) (df : DF) :
    idsOf (dropXtraCols bnd feats df) = idsOf df :=
  foldl_dropX_ids bnd feats ["id", "name", "geometry"] df

theorem idsOf_mergeLeft (L R : DF) (lc rc : String) :
    idsOf (mergeLeft L R lc rc)
      = (List.range (mergeLeft L R lc rc).rows.length).map (fun n : Nat => Value.vNum n) := by
  unfold idsOf mergeLeft
  simp only [List.length_map, List.enum_length, List.map_map]
  have hfun : ((fun p : Value × Row => p.1) ∘ (fun q : Nat × Row => (Value.vNum q.1, q.2)))
      = (fun n : Nat => Value.vNum n) ∘ Prod.fst := rfl
  rw [hfun, ← List.map_map, List.enum_map_fst]

theorem enrichBoundary_ok_ids (loader : String → Except Unit DF) (st : PkgState) (base : DF)
    (bname bcol : String) (out : DF)
    (h : (enrichBoundary loader st base bname bcol).2.2 = Except.ok out) :
    out.rows.length = base.rows.length ∧
    idsOf out = (List.range base.rows.length).map (fun n : Nat => Value.vNum n) := by
  simp only [enrichBoundary] at h
  repeat' split at h
  all_goals simp at h
  all_goals
    have hlen2 : out.rows.length = base.rows.length := by
      rw [← h, rows_length_astypeIntersects, rows_length_dropXtraCols]
      assumption
  all_goals refine ⟨hlen2, ?_⟩
  all_goals
    rw [← hlen2, ← h, idsOf_astypeIntersects, idsOf_dropXtraCols, idsOf_mergeLeft,
      rows_length_astypeIntersects, rows_length_dropXtraCols]

theorem enrichPoints_ids_facts (cw : DF) (bf : List (String × List String))
    (bd : List (String × DF)) (mkQK : Row → String) (points : DF) (m : ResolveDupsEnum)
    (out : DF)
    (hsafe : ∀ pr ∈ bf, ∀ colb ∈ (["id", "name", "geometry"] : List String),
      colb ++ "_" ++ pr.1 ≠ (namedIdx points).idxName)
    (h : enrichPoints cw bf bd mkQK points m = Except.ok out) :
    out.rows.length = points.rows.length ∧
    (∀ v, v ∈ idsOf out ↔ v ∈ idsOf points) ∧
    ((crosswalkJoin cw mkQK points).rows.length = points.rows.length →
      idsOf out = idsOf points) := by
  obtain ⟨hout, hlen⟩ := enrichPoints_ok_inv cw bf bd mkQK points m out h
  set idx := (namedIdx points).idxName with hidxd
  have hidx : idx ≠ "" := namedIdx_idxName_ne points
  set pcw0 := crosswalkJoin cw mkQK points with hp0
  set pcw1 := if pcw0.rows.length ≠ points.rows.length then resolveDups pcw0 m else pcw0
    with hp1
  set dfj0 := bf.foldl (boundaryMerge bd) pcw1.resetIndex with hdf
  have hpcw0ne : pcw0.idxName = idx := by
    rw [hp0, crosswalkJoin_idxName, ← hidxd]
  have hpidx : pcw1.idxName = idx := by
    rw [hp1]
    by_cases hc : pcw0.rows.length ≠ points.rows.length
    · rw [if_pos hc, resolveDups_idxName, hpcw0ne]
    · rw [if_neg hc, hpcw0ne]
  have hpne : pcw1.idxName ≠ "" := by rw [hpidx]; exact hidx
  have hInv : ∀ p ∈ pcw1.resetIndex.rows, hasColR p.2 idx = true := by
    intro p hp
    rw [resetIndex_rows pcw1 hpne] at hp
    rcases List.mem_map.mp hp with ⟨q, hq, rfl⟩
    show hasColR ((pcw1.idxName, q.2.1) :: q.2.2) idx = true
    rw [hpidx]
    exact hasColR_cons_self idx q.2.1 q.2.2
  obtain ⟨hmono, hmem, hlenEq⟩ := foldl_boundaryMerge_facts bd bf pcw1.resetIndex idx hsafe hInv
  rw [← hdf] at hmono hmem hlenEq
  have hcv1 : colVals pcw1.resetIndex idx = idsOf pcw1 := by
    have h2 := colVals_resetIndex pcw1 hpne
    rw [hpidx] at h2
    exact h2
  have hmem1 : ∀ v, v ∈ idsOf pcw1 ↔ v ∈ idsOf points := by
    intro v
    rw [hp1]
    by_cases hc : pcw0.rows.length ≠ points.rows.length
    · rw [if_pos hc]
      rw [mem_idsOf_resolveDups pcw0 m v (by rw [hpcw0ne]; exact hidx)]
      rw [hp0]
      exact mem_idsOf_crosswalkJoin cw mkQK points v
    · rw [if_neg hc, hp0]
      exact mem_idsOf_crosswalkJoin cw mkQK points v
  have hlen0 : out.rows.length = points.rows.length := by
    rw [hout, rows_length_astypeIntersects, rows_length_dropColsList]
    exact hlen
  have hidsout : idsOf out = colVals dfj0 idx := by
    rw [hout, idsOf_astypeIntersects, idsOf_dropColsList, idsOf_setIndex]
  refine ⟨hlen0, ?_, ?_⟩
  · intro v
    rw [hidsout, hmem v, hcv1]
    exact hmem1 v
  · intro hnofan
    have hcc : ¬(pcw0.rows.length ≠ points.rows.length) := fun hmm => hmm hnofan
    have hceq : pcw1 = pcw0 := by
      rw [hp1, if_neg hcc]
    have hl1 : pcw1.resetIndex.rows.length = points.rows.length := by
      rw [rows_length_resetIndex, hceq]
      exact hnofan
    have hl2 : dfj0.rows.length = points.rows.length := by
      have h3 := hlen
      rw [rows_length_setIndex] at h3
      exact h3
    have hfoldlen : dfj0.rows.length = pcw1.resetIndex.rows.length := by
      rw [hl1, hl2]
    have hcveq := hlenEq hfoldlen
    rw [hidsout, hcveq, hcv1, hceq, hp0]
    exact idsOf_crosswalkJoin_eq_of_len cw mkQK points (by rw [← hp0]; exact hnofan)

/-! ### Claim theorems -/

/-- C1: the claim's order/label part is false on the code. On the coordinate
path, when the crosswalk join fans out, duplicate resolution re-sorts the rows
and the output identity order differs from the input's (here `[1, 0]` versus
`[0, 1]`); on the identifier path the caller's index label (`10`) is discarded
and replaced by the default integer range (`[0]`). Both outputs nevertheless
have the asserted row count. -/
theorem C1_counterexample :
    enrichPoints cw1 [] [] mkQK1 pts1 ResolveDupsEnum.largest_area = Except.ok outC1 ∧
    outC1.rows.length = pts1.rows.length ∧
    idsOf outC1 ≠ idsOf pts1 ∧
    (enrichBoundary noLoader st8 baseB "cbg" "cbg").2.2 = Except.ok out8 ∧
    out8.rows.length = baseB.rows.length ∧
    idsOf out8 ≠ idsOf baseB :=
  ⟨rfl, by decide, by decide, rfl, by decide, by decide⟩

/-- C1 (amended): every successful enrich result has the asserted row count of
its input, on both paths. On the coordinate path the output's row identity
*set* always equals the input's (provided no requested boundary feature is
named like the input's index column), and the identity list is preserved with
order exactly when the crosswalk join does not fan out; when duplicate
resolution runs, the order may change. On the identifier path the caller's
index labels are always discarded: the output is relabeled with the default
integer range. -/
theorem C1_row_count_and_identity :
    (∀ (cw : DF) (bf : List (String × List String)) (bd : List (String × DF))
        (mkQK : Row → String) (points : DF) (m : ResolveDupsEnum) (out : DF),
      (∀ pr ∈ bf, ∀ colb ∈ (["id", "name", "geometry"] : List String),
          colb ++ "_" ++ pr.1 ≠ (namedIdx points).idxName) →
      enrichPoints cw bf bd mkQK points m = Except.ok out →
      out.rows.length = points.rows.length ∧
      (∀ v, v ∈ idsOf out ↔ v ∈ idsOf points) ∧
      ((crosswalkJoin cw mkQK points).rows.length = points.rows.length →
        idsOf out = idsOf points)) ∧
    (∀ (loader : String → Except Unit DF) (st : PkgState) (base : DF)
        (bname bcol : String) (out : DF),
      (enrichBoundary loader st base bname bcol).2.2 = Except.ok out →
      out.rows.length = base.rows.length ∧
      idsOf out = (List.range base.rows.length).map (fun n : Nat => Value.vNum n)) :=
  ⟨fun cw bf bd mkQK points m out hsafe h =>
      enrichPoints_ids_facts cw bf bd mkQK points m out hsafe h,
   fun loader st base bname bcol out h =>
      enrichBoundary_ok_ids loader st base bname bcol out h⟩

/-- C1 witness: the two-point coordinate enrichment with unique crosswalk
matches keeps row count, identity set and order; the one-row identifier-path
scenario keeps row count and is relabeled to the integer range. -/
theorem C1_row_count_and_identity_witness :
    outW.rows.length = ptsW.rows.length ∧
    (Value.vNum 0 ∈ idsOf outW ↔ Value.vNum 0 ∈ idsOf ptsW) ∧
    idsOf outW = idsOf ptsW ∧
    out8.rows.length = baseB.rows.length ∧
    idsOf out8 = (List.range baseB.rows.length).map (fun n : Nat => Value.vNum n) := by
  obtain ⟨hP, hB⟩ := C1_row_count_and_identity
  obtain ⟨h1, h2, h3⟩ := hP cwW [] [] mkQK1 ptsW ResolveDupsEnum.largest_area outW
    (by decide) rfl
  obtain ⟨h4, h5⟩ := hB noLoader st8 baseB "cbg" "cbg" out8 rfl
  exact ⟨h1, h2 (Value.vNum 0), h3 (by decide), h4, h5⟩

/-- C2: as stated, the claim is false on the code: when every requested
boundary name is unknown (and no features are requested), `infer_bounds` does
not return the empty selection — it falls back to selecting the whole known
enumeration, so the result keys are not contained in the request. -/
theorem C2_counterexample :
    infer_bounds ["bogus"] [] = KNOWN_BOUNDARIES.map (fun kb => (kb, [])) ∧
      "cbg" ∈ (infer_bounds ["bogus"] []).map (fun p => p.1) ∧
      "cbg" ∉ (["bogus"] : List String) := by
  decide

/-- C2 (amended): for a non-empty boundary request containing at least one
known name, and no feature request, the keys of `infer_bounds` are exactly the
requested names that are known — unknown names are silently dropped (the
function is total, so no error is possible).  When no requested name is known
(and no features are requested) the result instead falls back to every known
boundary. -/
theorem C2_unknown_names_dropped (boundaries : List String) (hne : boundaries ≠ [])
    (hknown : ∃ b ∈ boundaries, b ∈ KNOWN_BOUNDARIES) (k : String) :
    ((alookup (infer_bounds boundaries []) k).isSome = true ↔
      (k ∈ boundaries ∧ k ∈ KNOWN_BOUNDARIES)) := by
  have hd0 : inferBoundsD0 boundaries
      = (boundaries.filter (fun b => b ∈ KNOWN_BOUNDARIES)).foldl
          (fun acc b => upsert acc b []) [] := by
    unfold inferBoundsD0
    rw [if_pos hne]
  have hd1 : inferBoundsD1 [] (inferBoundsD0 boundaries) = inferBoundsD0 boundaries := by
    unfold inferBoundsD1
    simp
  have hmem : ∀ k2, k2 ∈ (inferBoundsD0 boundaries).map (fun p => p.1) ↔
      (k2 ∈ boundaries ∧ k2 ∈ KNOWN_BOUNDARIES) := by
    intro k2
    rw [hd0, mem_keys_foldl_upsert]
    simp [List.mem_filter]
  have hnonempty : inferBoundsD0 boundaries ≠ [] := by
    rcases hknown with ⟨b, hb1, hb2⟩
    intro hemp
    have hb3 : b ∈ (inferBoundsD0 boundaries).map (fun p => p.1) := (hmem b).mpr ⟨hb1, hb2⟩
    rw [hemp] at hb3
    simp at hb3
  unfold infer_bounds
  rw [hd1, if_neg hnonempty, alookup_isSome_iff_mem]
  exact hmem k

/-- Witness for C2: with request `["county", "bogus"]` the known name is kept
and the unknown one is dropped. -/
theorem C2_unknown_names_dropped_witness :
    ((alookup (infer_bounds ["county", "bogus"] []) "county").isSome = true) ∧
      ¬((alookup (infer_bounds ["county", "bogus"] []) "bogus").isSome = true) := by
  constructor
  · exact (C2_unknown_names_dropped ["county", "bogus"] (by decide)
      ⟨"county", by decide, by decide⟩ "county").mpr (by decide)
  · intro h
    have h2 := (C2_unknown_names_dropped ["county", "bogus"] (by decide)
      ⟨"county", by decide, by decide⟩ "bogus").mp h
    revert h2
    decide

/-- C3: calling `load` twice in a row with identical arguments is idempotent:
given the first call succeeded, the second call returns the very same state,
fetches no boundary table and does not fetch the crosswalk (its only side
effect is the skip logging). -/
theorem C3_load_idempotent (loader : String → Except Unit DF) (cwLoader : Except Unit DF)
    (st : PkgState) (bs fs : List String) (h : (load loader cwLoader st bs fs).ok = true) :
    load loader cwLoader (load loader cwLoader st bs fs).state bs fs
      = { state := (load loader cwLoader st bs fs).state, fetched := [], cwFetched := false,
          ok := true } := by
  cases hcw : st.crosswalk with
  | some cw =>
    have hl : load loader cwLoader st bs fs = loadReconcile loader st bs fs false := by
      simp [load, hcw]
    rw [hl] at h ⊢
    exact load_after_reconcile_ok loader cwLoader st bs fs false h (by rw [hcw]; rfl)
  | none =>
    cases hcwl : cwLoader with
    | error e =>
      rw [hcwl] at h
      have hl : load loader (Except.error e) st bs fs
          = { state := st, fetched := [], cwFetched := false, ok := false } := by
        simp [load, hcw]
      rw [hl] at h
      simp at h
    | ok cw =>
      rw [hcwl] at h
      have hl : load loader (Except.ok cw) st bs fs
          = loadReconcile loader { st with crosswalk := some (cw.setIndex "id") } bs fs true := by
        simp [load, hcw]
      rw [hl] at h ⊢
      exact load_after_reconcile_ok loader (Except.ok cw) _ bs fs true h rfl

/-- Witness for C3 at a concrete successful first `load(["county"])`. -/
theorem C3_load_idempotent_witness :
    load okLoader cwOk (load okLoader cwOk ({} : PkgState) ["county"] []).state ["county"] []
      = { state := (load okLoader cwOk ({} : PkgState) ["county"] []).state, fetched := [],
          cwFetched := false, ok := true } :=
  C3_load_idempotent okLoader cwOk {} ["county"] [] (by decide)

/-- C4: after a successful `load` on a state satisfying the resident-set
invariant (a boundary table is resident iff its feature subset is recorded),
the resident boundary set equals exactly the boundary types of the call's
computed target (`infer_bounds`): newly targeted types become resident, and
every resident type absent from the target is evicted. -/
theorem C4_resident_matches_target (loader : String → Except Unit DF) (cwLoader : Except Unit DF)
    (st : PkgState) (bs fs : List String)
    (hinv : ∀ b2, (alookup st.boundary_data b2).isSome = true ↔
      (alookup st.bounds_features b2).isSome = true)
    (hok : (load loader cwLoader st bs fs).ok = true) (b : String) :
    ((alookup (load loader cwLoader st bs fs).state.boundary_data b).isSome = true ↔
      (alookup (infer_bounds bs fs) b).isSome = true) := by
  cases hcw : st.crosswalk with
  | some cw =>
    have hl : load loader cwLoader st bs fs = loadReconcile loader st bs fs false := by
      simp [load, hcw]
    rw [hl] at hok ⊢
    rw [loadReconcile_eq] at hok ⊢
    exact loadBoundsFeatures_ok_resident loader st (infer_bounds bs fs) hinv hok b
  | none =>
    cases hcwl : cwLoader with
    | error e =>
      rw [hcwl] at hok
      have hl : load loader (Except.error e) st bs fs
          = { state := st, fetched := [], cwFetched := false, ok := false } := by
        simp [load, hcw]
      rw [hl] at hok
      simp at hok
    | ok cw =>
      rw [hcwl] at hok
      have hl : load loader (Except.ok cw) st bs fs
          = loadReconcile loader { st with crosswalk := some (cw.setIndex "id") } bs fs true := by
        simp [load, hcw]
      rw [hl] at hok ⊢
      rw [loadReconcile_eq] at hok ⊢
      exact loadBoundsFeatures_ok_resident loader
        { st with crosswalk := some (cw.setIndex "id") } (infer_bounds bs fs) hinv hok b

/-- Witness for C4: from a state with `county` and `zipcode` resident,
`load(["zipcode"])` leaves `zipcode` resident and evicts `county`. -/
theorem C4_resident_matches_target_witness :
    (((alookup (load okLoader cwOk c4st ["zipcode"] []).state.boundary_data "county").isSome = true ↔
      (alookup (infer_bounds ["zipcode"] []) "county").isSome = true) ∧
    ((alookup (load okLoader cwOk c4st ["zipcode"] []).state.boundary_data "zipcode").isSome = true ↔
      (alookup (infer_bounds ["zipcode"] []) "zipcode").isSome = true)) := by
  have hinv : ∀ b2, (alookup c4st.boundary_data b2).isSome = true ↔
      (alookup c4st.bounds_features b2).isSome = true := by
    intro b2
    show (alookup [("county", tinyDF), ("zipcode", tinyDF)] b2).isSome = true ↔
      (alookup [("county", ([] : List String)), ("zipcode", [])] b2).isSome = true
    rw [alookup_cons, alookup_cons, alookup_cons, alookup_cons]
    by_cases h1 : "county" = b2
    · rw [if_pos h1, if_pos h1]
      simp
    · rw [if_neg h1, if_neg h1]
      by_cases h2 : "zipcode" = b2
      · rw [if_pos h2, if_pos h2]
        simp
      · rw [if_neg h2, if_neg h2]
        simp [alookup]
  exact ⟨C4_resident_matches_target okLoader cwOk c4st ["zipcode"] [] hinv (by decide) "county",
    C4_resident_matches_target okLoader cwOk c4st ["zipcode"] [] hinv (by decide) "zipcode"⟩

/-- C5: as stated, the claim is false on the code: when the loader fails on the
second of two boundaries to fetch, the call reports the failure, but the table
fetched for the first boundary is already stored — a partial mutation visible
to callers. -/
theorem C5_counterexample :
    (load zipFailLoader cwOk ({} : PkgState) ["county", "zipcode"] []).ok = false ∧
      ¬((load zipFailLoader cwOk ({} : PkgState) ["county", "zipcode"] []).state.boundary_data
        = ({} : PkgState).boundary_data) := by
  decide

/-- C5 (amended): a loader failure during `load` propagates uncaught (the call
reports failure), and the feature-subset record `bounds_features` is unchanged
(evictions and the record overwrite happen only after all fetches succeed) —
but boundary tables fetched earlier in the same call remain stored, so the
resident tables are not in general those from before the call. -/
theorem C5_failure_keeps_record (loader : String → Except Unit DF) (cwLoader : Except Unit DF)
    (st : PkgState) (bs fs : List String)
    (h : (load loader cwLoader st bs fs).ok = false) :
    (load loader cwLoader st bs fs).state.bounds_features = st.bounds_features := by
  cases hcw : st.crosswalk with
  | some cw =>
    have hl : load loader cwLoader st bs fs = loadReconcile loader st bs fs false := by
      simp [load, hcw]
    rw [hl] at h ⊢
    rw [loadReconcile_eq] at h ⊢
    exact loadBoundsFeatures_fail_bounds loader st (infer_bounds bs fs) h
  | none =>
    cases hcwl : cwLoader with
    | error e =>
      have hl : load loader (Except.error e) st bs fs
          = { state := st, fetched := [], cwFetched := false, ok := false } := by
        simp [load, hcw]
      rw [hl]
    | ok cw =>
      rw [hcwl] at h
      have hl : load loader (Except.ok cw) st bs fs
          = loadReconcile loader { st with crosswalk := some (cw.setIndex "id") } bs fs true := by
        simp [load, hcw]
      rw [hl] at h ⊢
      rw [loadReconcile_eq] at h ⊢
      exact loadBoundsFeatures_fail_bounds loader
        { st with crosswalk := some (cw.setIndex "id") } (infer_bounds bs fs) h

/-- Witness for C5 (amended) at the concrete failing scenario. -/
theorem C5_failure_keeps_record_witness :
    (load zipFailLoader cwOk ({} : PkgState) ["county", "zipcode"] []).state.bounds_features
      = ({} : PkgState).bounds_features :=
  C5_failure_keeps_record zipFailLoader cwOk {} ["county", "zipcode"] [] (by decide)

/-- C8: in every enrich result (both the coordinate path and the identifier
path), no cell in a column whose name contains the substring `"intersects"` is
a native boolean: the final dtype-cleanup step casts every such column to
float, mapping booleans to 0/1. -/
theorem C8_intersects_cast :
    (∀ (cw : DF) (bf : List (String × List String)) (bd : List (String × DF))
       (mkQK : Row → String) (points : DF) (m : ResolveDupsEnum) (out : DF),
       enrichPoints cw bf bd mkQK points m = Except.ok out →
       ∀ p ∈ out.rows, ∀ q ∈ p.2, containsIntersects q.1 = true → ∀ b, q.2 ≠ Value.vBool b) ∧
    (∀ (loader : String → Except Unit DF) (st : PkgState) (base : DF) (bname bcol : String)
       (out : DF),
       (enrichBoundary loader st base bname bcol).2.2 = Except.ok out →
       ∀ p ∈ out.rows, ∀ q ∈ p.2, containsIntersects q.1 = true → ∀ b, q.2 ≠ Value.vBool b) := by
  constructor
  · intro cw bf bd mkQK points m out h
    obtain ⟨hout, _⟩ := enrichPoints_ok_inv cw bf bd mkQK points m out h
    rw [hout]
    exact astypeIntersects_no_bool _
  · intro loader st base bname bcol out h
    obtain ⟨df0, hout⟩ := enrichBoundary_ok_inv loader st base bname bcol out h
    rw [hout]
    exact astypeIntersects_no_bool _

/-- Witness for C8: a concrete identifier-based run whose boolean
`coast_intersects_cbg` cell comes out as the float 1, not a boolean. -/
theorem C8_intersects_cast_witness :
    ("coast_intersects_cbg", Value.vNum 1).2 ≠ Value.vBool true :=
  (C8_intersects_cast).2 noLoader st8 baseB "cbg" "cbg" out8 rfl
    (Value.vNum 0, [("cbg", Value.vStr "a"), ("coast_intersects_cbg", Value.vNum 1)]) (by decide)
    ("coast_intersects_cbg", Value.vNum 1) (by decide) (by decide) true

/-- C9: an enrich call on a plain (non-geometry) table that supplies neither a
boundary-identifier column nor both coordinate columns fails the precondition
assertion before any join is attempted; the state and the caller's table are
returned untouched. -/
theorem C9_reject_missing_columns (loader : String → Except Unit DF) (mkQK : Row → String)
    (st : PkgState) (points : DF) (lat lon : Option String) (m : ResolveDupsEnum)
    (hgeo : points.isGeo = false)
    (hll : ¬(truthyS lat = true ∧ truthyS lon = true)) :
    enrich loader mkQK st points lat lon none none none none none m
      = (st, points,
        Except.error "AssertionError: points is not a GeoDataFrame and no identifier or coordinate columns were passed") := by
  have hcond : (points.isGeo || (truthyS lat && truthyS lon)) = false := by
    rw [hgeo]
    cases h1 : truthyS lat <;> cases h2 : truthyS lon <;> simp_all
  unfold enrich
  rw [if_neg (by simp [truthyS]), if_neg (by simp [truthyS]), if_neg (by simp [truthyS]),
    if_neg (by simp [truthyS]), if_neg (by simp [truthyS]), if_neg (by rw [hcond]; simp)]

/-- Witness for C9 at a concrete empty plain table with no columns supplied. -/
theorem C9_reject_missing_columns_witness :
    enrich noLoader mkQK1 ({} : PkgState) ({} : DF) none none none none none none none
        ResolveDupsEnum.largest_area
      = (({} : PkgState), ({} : DF),
        Except.error "AssertionError: points is not a GeoDataFrame and no identifier or coordinate columns were passed") :=
  C9_reject_missing_columns noLoader mkQK1 {} {} none none ResolveDupsEnum.largest_area
    (by decide) (by decide)

/-- C10: identifier-based enrich mutates the caller's input in place — whatever
else the call does, the caller's table is left with its identifier column cast
to string dtype — and this cast can actually change the table (second
conjunct: a table with numeric codes is not left unchanged). -/
theorem C10_inplace_mutation :
    (∀ (loader : String → Except Unit DF) (mkQK : Row → String) (st : PkgState) (points : DF)
       (m : ResolveDupsEnum) (colname : String), colname ≠ "" → colname ∈ points.cols →
       (enrich loader mkQK st points none none (some colname) none none none none m).2.1
         = castStrColDF points colname) ∧
    castStrColDF c10pts "cbg" ≠ c10pts := by
  constructor
  · intro loader mkQK st points m colname hne hmem
    have ht : truthyS (some colname) = true := by simp [truthyS, hne]
    simp only [enrich, ht, if_true, Option.getD]
    exact enrichBoundary_caller loader st points "cbg" colname hmem
  · decide

/-- C6: duplicate resolution applied to the (left-join) crosswalk result keeps
exactly one row per distinct input identity, and an identity with zero
crosswalk matches still appears — exactly once — with every crosswalk column
null (the join is a left join, so unmatched rows are null-filled rather than
dropped). -/
theorem C6_one_row_per_identity (cw : DF) (mkQK : Row → String) (pts : DF)
    (m : ResolveDupsEnum) (v : Value) (hv : v ∈ idsOf pts) :
    ((resolveDups (crosswalkJoin cw mkQK pts) m).rows.countP
        (fun p => decide (p.1 = v)) = 1) ∧
    ((∀ p ∈ pts.rows, p.1 = v → ∀ q ∈ cw.rows, q.1 ≠ Value.vStr (mkQK p.2)) →
     (∀ c ∈ cw.cols, ∀ p ∈ pts.rows, hasColR p.2 c = false) →
     (∀ c ∈ cw.cols, c ≠ "qk") →
     (∀ c ∈ cw.cols, c ≠ (namedIdx pts).idxName) →
     ∀ p ∈ (resolveDups (crosswalkJoin cw mkQK pts) m).rows, p.1 = v →
       ∀ c ∈ cw.cols, getV p.2 c = Value.vNull) := by
  have hne : (crosswalkJoin cw mkQK pts).idxName ≠ "" := by
    rw [crosswalkJoin_idxName]
    exact namedIdx_idxName_ne pts
  constructor
  · exact countP_resolveDups (crosswalkJoin cw mkQK pts) m v hne
      ((mem_idsOf_crosswalkJoin cw mkQK pts v).mpr hv)
  · intro hm hd hqk hidx p hp hpv c hc
    rcases mem_resolveDups (crosswalkJoin cw mkQK pts) m p hne hp with ⟨w, hw, hw1, hw2⟩
    have hwnull : getV w.2 c = Value.vNull :=
      crosswalkJoin_row_null cw mkQK pts v hm hd hqk w hw (by rw [← hw1]; exact hpv) c hc
    rw [hw2]
    have hcni : c ≠ (crosswalkJoin cw mkQK pts).idxName := by
      rw [crosswalkJoin_idxName]
      exact hidx c hc
    rw [getV_eraseCol_ne w.2 c (crosswalkJoin cw mkQK pts).idxName hcni]
    exact hwnull

/-- Witness for C6 at the concrete two-point scenario: point 0 has no crosswalk
match, appears exactly once after resolution, and its `county_id` cell is null. -/
theorem C6_one_row_per_identity_witness :
    ((resolveDups (crosswalkJoin cw1 mkQK1 pts1) ResolveDupsEnum.largest_area).rows.countP
        (fun p => decide (p.1 = Value.vNum 0)) = 1) ∧
    getV [("qk0", Value.vStr "a"), ("county_id", Value.vNull),
      ("county_area_sqkm", Value.vNull)] "county_id" = Value.vNull :=
  ⟨(C6_one_row_per_identity cw1 mkQK1 pts1 ResolveDupsEnum.largest_area (Value.vNum 0)
      (by decide)).1,
   (C6_one_row_per_identity cw1 mkQK1 pts1 ResolveDupsEnum.largest_area (Value.vNum 0)
      (by decide)).2 (by decide) (by decide) (by decide) (by decide)
      (Value.vNum 0, [("qk0", Value.vStr "a"), ("county_id", Value.vNull),
        ("county_area_sqkm", Value.vNull)]) (by decide) (by decide) "county_id" (by decide)⟩

/-- C7: when an input identity has two candidate rows whose (single-boundary)
area values differ, duplicate resolution under `largest_area` keeps exactly the
larger-area candidate and under `smallest_area` exactly the smaller-area
candidate.  (Both `resolveDups` calls are pure functions of their input, so
repeated runs are identical by construction.) -/
theorem C7_rank_rule_deterministic (df : DF) (v : Value) (r1 r2 : Row) (a b : Int)
    (hidcols : ∀ bn ∈ KNOWN_BOUNDARIES, ((bn ++ "_id") ∈ df.cols ↔ bn = "county"))
    (hne : df.idxName ≠ "")
    (hidx2 : ∀ bn ∈ KNOWN_BOUNDARIES, df.idxName ≠ bn ++ "_id")
    (hidx3 : df.idxName ≠ "county_area_sqkm")
    (hr1 : (v, r1) ∈ df.rows) (hr2 : (v, r2) ∈ df.rows)
    (honly : ∀ p ∈ df.rows, p.1 = v → p.2 = r1 ∨ p.2 = r2)
    (ha : getV r1 "county_area_sqkm" = Value.vNum a)
    (hb : getV r2 "county_area_sqkm" = Value.vNum b) (hab : a < b)
    (hc1 : hasColR r1 df.idxName = false) (hc2 : hasColR r2 df.idxName = false) :
    ((resolveDups df ResolveDupsEnum.largest_area).rows.filter
        (fun p => decide (p.1 = v)) = [(v, r2)]) ∧
    ((resolveDups df ResolveDupsEnum.smallest_area).rows.filter
        (fun p => decide (p.1 = v)) = [(v, r1)]) := by
  have hid : KNOWN_BOUNDARIES.filter (fun bn => decide ((bn ++ "_id") ∈ (DF.resetIndex df).cols))
      = ["county"] := by
    have hstep : ∀ bn ∈ KNOWN_BOUNDARIES,
        (decide ((bn ++ "_id") ∈ (DF.resetIndex df).cols)) = decide (bn = "county") := by
      intro bn hbn
      rw [decide_eq_decide, resetIndex_cols df hne, List.mem_cons]
      constructor
      · rintro (h | h)
        · exact absurd h.symm (hidx2 bn hbn)
        · exact (hidcols bn hbn).mp h
      · intro h
        right
        exact (hidcols bn hbn).mpr h
    rw [List.filter_congr hstep]
    decide
  constructor
  · simp only [resolveDups]
    rw [hid]
    simp only [List.map_cons, List.map_nil, DF.setIndex, dropDupsCol, sortValues]
    exact resolveDups_pick_core df v r2 r1 false hne hidx3 hr2 hr1
      (fun p hp hpv => (honly p hp hpv).symm)
      (by rw [hb, ha]; simp only [valueLe]; simp; omega)
      (by rw [ha, hb]; simp only [valueLe]; simp; omega)
      hc2
  · simp only [resolveDups]
    rw [hid]
    simp only [List.map_cons, List.map_nil, DF.setIndex, dropDupsCol, sortValues]
    exact resolveDups_pick_core df v r1 r2 true hne hidx3 hr1 hr2
      (honly)
      (by rw [ha, hb]; simp only [valueLe]; simp; omega)
      (by rw [hb, ha]; simp only [valueLe]; simp; omega)
      hc1

/-- Witness for C7 at the concrete overlapping-counties scenario (areas 5 and
10 for the same point). -/
theorem C7_rank_rule_deterministic_witness :
    ((resolveDups (crosswalkJoin cw1 mkQK1 pts1) ResolveDupsEnum.largest_area).rows.filter
        (fun p => decide (p.1 = Value.vNum 1))
      = [(Value.vNum 1, [("qk0", Value.vStr "b"), ("county_id", Value.vStr "c2"),
          ("county_area_sqkm", Value.vNum 10)])]) ∧
    ((resolveDups (crosswalkJoin cw1 mkQK1 pts1) ResolveDupsEnum.smallest_area).rows.filter
        (fun p => decide (p.1 = Value.vNum 1))
      = [(Value.vNum 1, [("qk0", Value.vStr "b"), ("county_id", Value.vStr "c1"),
          ("county_area_sqkm", Value.vNum 5)])]) :=
  C7_rank_rule_deterministic (crosswalkJoin cw1 mkQK1 pts1) (Value.vNum 1)
    [("qk0", Value.vStr "b"), ("county_id", Value.vStr "c1"), ("county_area_sqkm", Value.vNum 5)]
    [("qk0", Value.vStr "b"), ("county_id", Value.vStr "c2"), ("county_area_sqkm", Value.vNum 10)]
    5 10 (by decide) (by decide) (by decide) (by decide) (by decide) (by decide) (by decide)
    (by decide) (by decide) (by decide) (by decide) (by decide)

/-- Witness for C10: a caller table with a numeric `cbg` column is visibly
coerced to strings by the call. -/
theorem C10_inplace_mutation_witness :
    (enrich noLoader mkQK1 stB c10pts none none (some "cbg") none none none none
        ResolveDupsEnum.largest_area).2.1
      = castStrColDF c10pts "cbg" :=
  (C10_inplace_mutation).1 noLoader mkQK1 stB c10pts ResolveDupsEnum.largest_area "cbg"
    (by decide) (by decide)

end Iggy
